import Mathlib

/-!
# document-comment-api: a shallow embedding and its verified properties

The Go service keeps four SQLite tables (documents, drafts, comments,
reactions) and serves a handful of JSON endpoints over them.  This file embeds

* `pkg/api/handlers.go`: the emoji validator and the request handlers,
* `pkg/database/document_draft_db.go`: the store operations,

as Lean functions over an explicit `Store` value, and proves properties of them.

Conventions of the embedding.

* A table is the list of its rows in rowid order; an `INSERT` appends a row.
* Go `int` is a 64-bit two-complement integer: arithmetic done by Go is wrapped
  with `wrapInt64`, and an `INTEGER PRIMARY KEY AUTOINCREMENT` column refuses an
  insert once the largest rowid has been handed out.
* `time.Now()` is an input of the operation that calls it.
* Every statement sent to the engine may be refused by the engine; an operation
  takes, for each of its statements, a flag saying whether the engine refuses
  it.  A refused statement changes nothing.
* A Go `string` is embedded as a Lean `String`, a rune as its code point; byte
  sequences that are not UTF-8 have no counterpart here.
* A Go slice is embedded as the list of its elements; the `Reactions` of a
  comment, where `nil` and the empty slice are told apart, is an `Option` of
  that list, `none` for `nil`.
* `ORDER BY` is embedded as a stable sort and ranging over a Go map as ranging
  over its keys in the order they were first stored; the engine and the Go
  runtime promise neither, and no theorem below depends on either.
-/

namespace DocumentApi

/-! ## Validation (`pkg/api/handlers.go`) -/

/-- `isSupportedEmoji(r rune) bool`: the eight inclusive ranges, in source order. -/
def isSupportedEmoji (r : Int) : Bool :=
  (decide (r ≥ 0x1F600) && decide (r ≤ 0x1F64F)) ||
  (decide (r ≥ 0x1F300) && decide (r ≤ 0x1F5FF)) ||
  (decide (r ≥ 0x1F680) && decide (r ≤ 0x1F6FF)) ||
  (decide (r ≥ 0x2600) && decide (r ≤ 0x26FF)) ||
  (decide (r ≥ 0x2700) && decide (r ≤ 0x27BF)) ||
  (decide (r ≥ 0xFE00) && decide (r ≤ 0xFE0F)) ||
  (decide (r ≥ 0x1F900) && decide (r ≤ 0x1F9FF)) ||
  (decide (r ≥ 0x1F1E6) && decide (r ≤ 0x1F1FF))

/-- The rune of a character, as `range` over a string yields it. -/
def runeOf (c : Char) : Int := (c.toNat : Int)

/-- The body of `for _, r := range s` in `isOnlySupportedEmojis`: the first
unsupported rune returns `false`, the end of the string returns `true`. -/
def isOnlySupportedEmojisLoop : List Char → Bool
  | [] => true
  | c :: rest => if !isSupportedEmoji (runeOf c) then false else isOnlySupportedEmojisLoop rest

/-- `isOnlySupportedEmojis(s string) bool`. -/
def isOnlySupportedEmojis (s : String) : Bool :=
  isOnlySupportedEmojisLoop s.toList

/-- The allow-list as the specification words it: a code point lies in at least
one of the eight listed ranges. -/
def InPermittedRange (n : Nat) : Prop :=
  (0x1F600 ≤ n ∧ n ≤ 0x1F64F) ∨ (0x1F300 ≤ n ∧ n ≤ 0x1F5FF) ∨
  (0x1F680 ≤ n ∧ n ≤ 0x1F6FF) ∨ (0x2600 ≤ n ∧ n ≤ 0x26FF) ∨
  (0x2700 ≤ n ∧ n ≤ 0x27BF) ∨ (0xFE00 ≤ n ∧ n ≤ 0xFE0F) ∨
  (0x1F900 ≤ n ∧ n ≤ 0x1F9FF) ∨ (0x1F1E6 ≤ n ∧ n ≤ 0x1F1FF)

/-- `IsPermittedEmojiString` of the specification: every code point of the
string is in a permitted range. -/
def IsPermittedEmojiString (s : String) : Prop :=
  ∀ c ∈ s.toList, InPermittedRange c.toNat

/-- An ASCII letter, `A`..`Z` or `a`..`z`. -/
def IsAsciiLetter (c : Char) : Prop :=
  (65 ≤ c.toNat ∧ c.toNat ≤ 90) ∨ (97 ≤ c.toNat ∧ c.toNat ≤ 122)

/-- The thumbs-up sign, U+1F44D. -/
def thumbsUp : String := String.singleton (Char.ofNat 0x1F44D)

/-! ## Data model (`pkg/database/models.go`, `pkg/common/common_models.go`) -/

/-- Go `time.Time`; instants are kept abstract as tick counts. -/
abbrev Time := Nat

/-- The largest Go `int` on a 64-bit platform, also the largest SQLite rowid. -/
def maxInt64 : Int := 9223372036854775807

/-- The smallest Go `int` on a 64-bit platform. -/
def minInt64 : Int := -9223372036854775808

/-- Two-complement wrap-around of a 64-bit signed result. -/
def wrapInt64 (x : Int) : Int :=
  (x + 9223372036854775808) % 18446744073709551616 - 9223372036854775808

/-- A row of `documents` (`database.Document`). -/
structure Document where
  Id : Int
  Name : String
  LatestVersion : Int
  CreatedAt : Time
deriving DecidableEq

/-- A row of `drafts` (`database.Draft`). -/
structure Draft where
  Id : Int
  DocumentId : Int
  Content : String
  VersionNumber : Int
  CreatedAt : Time
deriving DecidableEq

/-- A row of `comments` (`database.Comment`); a NULL parent is `none`. -/
structure Comment where
  Id : Int
  DraftId : Int
  UserId : Int
  Text : String
  ParentCommentId : Option Int
  CreatedAt : Time
deriving DecidableEq

/-- A row of `reactions` as the schema of `setupTables` declares it. -/
structure ReactionRow where
  Id : Int
  CommentId : Int
  UserId : Int
  Emoji : String
  CreatedAt : Time
deriving DecidableEq

namespace common

/-- The request record `common.Draft`. -/
structure Draft where
  Name : String
  Content : String
  VersionNumber : Int
deriving DecidableEq

/-- The record `common.Reaction`. -/
structure Reaction where
  Id : Int
  UserId : Int
  Emoji : String
  CreatedAt : Time
deriving DecidableEq

end common

/-- The elements of a Go slice.  A slice is kept as `none` when it is `nil` (which
`encoding/json` writes as `null`) and as `some l` when it is not, with elements
`l` (written as a JSON array, `[]` for `some []`). -/
def sliceElems {α : Type} (s : Option (List α)) : List α := s.getD []

/-- Go `append(s, x)`: the result is never `nil`. -/
def sliceAppend {α : Type} (s : Option (List α)) (x : α) : Option (List α) :=
  some (sliceElems s ++ [x])

/-- The result record `database.CommentWithReactions`; `Reactions` is a Go slice,
`none` for `nil`. -/
structure CommentWithReactions where
  Id : Int
  UserId : Int
  Text : String
  ParentCommentId : Option Int
  CreatedAt : Time
  Reactions : Option (List common.Reaction)
deriving DecidableEq

/-- The database behind `database.SQLite`: each table as its rows in rowid order. -/
structure Store where
  documents : List Document
  drafts : List Draft
  comments : List Comment
  reactions : List ReactionRow
deriving DecidableEq

/-- The store right after `setupTables` on a fresh file: four empty tables. -/
def Store.empty : Store :=
  { documents := [], drafts := [], comments := [], reactions := [] }

/-- A Go `error` value, or the run-time failure of dereferencing `nil`. -/
inductive Error where
  | engine : String → Error
  | nilDereference : Error
deriving DecidableEq

/-- Which statements of one `CreateDraft` call the engine refuses. -/
structure Faults where
  beginTx : Bool
  selectByName : Bool
  updateVersion : Bool
  insertDocument : Bool
  selectById : Bool
  insertDraft : Bool
  commitTx : Bool
deriving DecidableEq

/-- The engine refuses nothing. -/
def Faults.none : Faults :=
  { beginTx := false, selectByName := false, updateVersion := false, insertDocument := false,
    selectById := false, insertDraft := false, commitTx := false }

/-- What one `CreateDraft` call takes from its surroundings: the engine faults
and the two readings of `time.Now()`. -/
structure Env where
  faults : Faults
  nowDocument : Time
  nowDraft : Time
deriving DecidableEq

/-- A surrounding in which the engine refuses nothing. -/
def Env.calm (nowDocument nowDraft : Time) : Env :=
  { faults := Faults.none, nowDocument := nowDocument, nowDraft := nowDraft }

/-- The rowid an `AUTOINCREMENT` key hands out next: one more than the largest
rowid used so far (rows are never deleted, so that is the largest rowid in the
table, or 0 for an empty table); `none` once 2^63-1 has been used (SQLITE_FULL). -/
def nextRowid (ids : List Int) : Option Int :=
  if ids.foldl max 0 < maxInt64 then some (ids.foldl max 0 + 1) else none

/-! ## Store operations (`pkg/database/document_draft_db.go`) -/

/-- `GetDocumentById`: `SELECT ... FROM documents WHERE Id = ?`, first row;
`sql.ErrNoRows` becomes `(nil, nil)`. -/
def GetDocumentById (s : Store) (refused : Bool) (id : Int) : Except Error (Option Document) :=
  if refused then .error (.engine "select document by id")
  else .ok (s.documents.find? (fun d => d.Id == id))

/-- `GetDocumentByName`: `SELECT ... FROM documents WHERE Name = ?`, first row;
`sql.ErrNoRows` becomes `(nil, nil)`. -/
def GetDocumentByName (s : Store) (refused : Bool) (name : String) :
    Except Error (Option Document) :=
  if refused then .error (.engine "select document by name")
  else .ok (s.documents.find? (fun d => d.Name == name))

/-- `incrementDocumentVersion`:
`UPDATE documents SET LatestVersion = ? WHERE Name = ?` with the version and
name of the given document, executed on the pool `s`. -/
def incrementDocumentVersion (s : Store) (refused : Bool) (document : Document) :
    Store × Option Error :=
  if refused then (s, some (.engine "update documents"))
  else
    ({ s with documents := s.documents.map (fun d =>
        if d.Name == document.Name then { d with LatestVersion := document.LatestVersion }
        else d) }, none)

/-- The statement `INSERT INTO documents (Name, CreatedAt, LatestVersion)
VALUES (?, ?, 1)` of `createDocument`, executed on the pool `s`, with the
`LastInsertId` of its result. -/
def insertDocument (s : Store) (refused : Bool) (name : String) (now : Time) :
    Except Error (Store × Int) :=
  if refused then .error (.engine "insert into documents")
  else
    match nextRowid (s.documents.map (fun d => d.Id)) with
    | none => .error (.engine "insert into documents: SQLITE_FULL")
    | some id =>
      .ok ({ s with documents := s.documents ++
              [{ Id := id, Name := name, LatestVersion := 1, CreatedAt := now }] }, id)

/-- `createDocument`: look the name up; bump the version of the document found,
or insert a new document with version 1 and read it back by id.  Every
statement goes to the pool `s`, so each is committed as soon as it succeeds. -/
def createDocument (s : Store) (env : Env) (name : String) :
    Store × Except Error (Option Document) :=
  match GetDocumentByName s env.faults.selectByName name with
  | .error e => (s, .error e)
  | .ok (some found) =>
    let existingDocument : Document :=
      { found with LatestVersion := wrapInt64 (found.LatestVersion + 1) }
    match incrementDocumentVersion s env.faults.updateVersion existingDocument with
    | (s1, some e) => (s1, .error e)
    | (s1, Option.none) => (s1, .ok (some existingDocument))
  | .ok Option.none =>
    match insertDocument s env.faults.insertDocument name env.nowDocument with
    | .error e => (s, .error e)
    | .ok (s1, id) => (s1, GetDocumentById s1 env.faults.selectById id)

/-- The statement `INSERT INTO drafts (DocumentId, Content, VersionNumber,
CreatedAt) VALUES (?, ?, ?, ?)` of `CreateDraft`. -/
def insertDraft (s : Store) (refused : Bool) (documentId : Int) (content : String)
    (versionNumber : Int) (now : Time) : Except Error Store :=
  if refused then .error (.engine "insert into drafts")
  else
    match nextRowid (s.drafts.map (fun d => d.Id)) with
    | none => .error (.engine "insert into drafts: SQLITE_FULL")
    | some id =>
      .ok { s with drafts := s.drafts ++
              [{ Id := id, DocumentId := documentId, Content := content,
                 VersionNumber := versionNumber, CreatedAt := now }] }

/-- `CreateDraft`: returns the store left behind and the returned `error`
(`none` for `nil`).

`s.Begin()` opens the transaction `tx`; `createDocument` then runs on `s`, not
on `tx`, so what it writes is committed at once; only the draft insert runs on
`tx` and is kept by `tx.Commit()` or dropped by `tx.Rollback()`. -/
def CreateDraft (s : Store) (env : Env) (draft : common.Draft) : Store × Option Error :=
  if env.faults.beginTx then (s, some (.engine "begin"))
  else
    match createDocument s env draft.Name with
    | (s1, .error e) => (s1, some e)
    | (s1, .ok Option.none) => (s1, some .nilDereference)
    | (s1, .ok (some doc)) =>
      match insertDraft s1 env.faults.insertDraft doc.Id draft.Content doc.LatestVersion
          env.nowDraft with
      | .error e => (s1, some e)
      | .ok s2 =>
        if env.faults.commitTx then (s1, some (.engine "commit")) else (s2, Option.none)

/-- `ORDER BY VersionNumber DESC`; rows with equal keys stay in scan order. -/
def orderByVersionNumberDesc (rows : List Draft) : List Draft :=
  rows.insertionSort (fun a b => a.VersionNumber ≥ b.VersionNumber)

/-- `ORDER BY Id DESC` on drafts. -/
def orderByIdDesc (rows : List Draft) : List Draft :=
  rows.insertionSort (fun a b => a.Id ≥ b.Id)

/-- The subquery `SELECT COUNT(*) FROM drafts d2 WHERE d2.DocumentId =
d.DocumentId AND d2.Id > d.Id` of `GetLatestDrafts`. -/
def countNewerDrafts (drafts : List Draft) (d : Draft) : Nat :=
  (drafts.filter (fun d2 => d2.DocumentId == d.DocumentId && decide (d2.Id > d.Id))).length

/-- `GetLatestDrafts`: for `limit > 0` the rows whose subquery count is below
`limit`, otherwise every row (the statement of the `else` branch has no
placeholder and the driver leaves the surplus argument unused); both ordered by
`VersionNumber DESC`. -/
def GetLatestDrafts (s : Store) (refused : Bool) (limit : Int) : Except Error (List Draft) :=
  if refused then .error (.engine "select drafts")
  else if limit > 0 then
    .ok (orderByVersionNumberDesc
      (s.drafts.filter (fun d => decide ((countNewerDrafts s.drafts d : Int) < limit))))
  else
    .ok (orderByVersionNumberDesc s.drafts)

/-- A character as the engine's `LIKE` reads it from the UTF-8 text: U+FFFE and
U+FFFF are read as U+FFFD, every other character as itself. -/
def likeChar (c : Char) : Char :=
  if c.toNat = 0xFFFE ∨ c.toNat = 0xFFFF then Char.ofNat 0xFFFD else c

/-- ASCII lower-casing, the only case folding `LIKE` does. -/
def asciiLower (c : Char) : Char :=
  if 65 ≤ c.toNat ∧ c.toNat ≤ 90 then Char.ofNat (c.toNat + 32) else c

/-- Two characters, as `likeChar` reads them, that `LIKE` takes for equal: the
same character, or two ASCII characters that differ in case only. -/
def likeSameChar (c d : Char) : Bool :=
  c == d || (decide (c.toNat < 128) && decide (d.toNat < 128) && asciiLower c == asciiLower d)

/-- Does `f` accept the text or one of its suffixes (the text after skipping
what a `%` absorbs)? -/
def likeSomeSuffix (f : List Char → Bool) : List Char → Bool
  | [] => f []
  | d :: rest => f (d :: rest) || likeSomeSuffix f rest

/-- The operator `text LIKE pattern` of SQLite without `ESCAPE`: `%` matches any
run of characters, `_` any one character, any other character itself up to
ASCII case. -/
def likeMatch : List Char → List Char → Bool
  | [], text => text.isEmpty
  | c :: p, text =>
    if c = '%' then likeSomeSuffix (likeMatch p) text
    else
      match text with
      | [] => false
      | d :: rest => (c == '_' || likeSameChar c d) && likeMatch p rest

/-- A text as the engine's `LIKE` reads it: up to its first NUL character (both
operands are handed to the matcher as NUL-terminated strings), character by
character through `likeChar`. -/
def likeOperand (text : List Char) : List Char :=
  (text.takeWhile (fun c => c != Char.ofNat 0)).map likeChar

/-- The engine's limit on the length of a `LIKE` pattern, in bytes. -/
def likePatternLimit : Nat := 50000

/-- `SearchDrafts`: `WHERE Content LIKE ?` with `"%" + query + "%"`,
`ORDER BY Id DESC`.  The engine evaluates `LIKE` row by row and fails with
"LIKE or GLOB pattern too complex" on a pattern of more than
`likePatternLimit` bytes, so the query fails as soon as there is a row. -/
def SearchDrafts (s : Store) (refused : Bool) (query : String) : Except Error (List Draft) :=
  let searchQuery := "%" ++ query ++ "%"
  if refused then .error (.engine "search drafts")
  else if !s.drafts.isEmpty && decide (searchQuery.utf8ByteSize > likePatternLimit) then
    .error (.engine "LIKE or GLOB pattern too complex")
  else .ok (orderByIdDesc (s.drafts.filter (fun d =>
    likeMatch (likeOperand searchQuery.toList) (likeOperand d.Content.toList))))

/-- A text that `LIKE` reads as it stands: no NUL character, no U+FFFE, no
U+FFFF. -/
def LikePlain (text : List Char) : Prop :=
  ∀ c ∈ text, c ≠ Char.ofNat 0 ∧ c.toNat ≠ 0xFFFE ∧ c.toNat ≠ 0xFFFF

/-- `AddCommentToDraft`: `INSERT INTO comments (DraftId, UserId, Text,
ParentCommentId, CreatedAt)`; returns the new comment id.  The `Id` of the
argument is not used, and nothing checks that the draft or the parent exists
(the driver leaves foreign keys unenforced unless asked). -/
def AddCommentToDraft (s : Store) (refused : Bool) (now : Time) (comment : Comment) :
    Store × Except Error Int :=
  if refused then (s, .error (.engine "insert into comments"))
  else
    match nextRowid (s.comments.map (fun c => c.Id)) with
    | none => (s, .error (.engine "insert into comments: SQLITE_FULL"))
    | some id =>
      ({ s with comments := s.comments ++
          [{ Id := id, DraftId := comment.DraftId, UserId := comment.UserId, Text := comment.Text,
             ParentCommentId := comment.ParentCommentId, CreatedAt := now }] }, .ok id)

/-- `AddReactionToComment`: `INSERT INTO reactions (CommentId, UserId, Emoji,
CreatedAt)` with `reaction.Id` as the comment id. -/
def AddReactionToComment (s : Store) (refused : Bool) (now : Time) (reaction : common.Reaction) :
    Store × Option Error :=
  if refused then (s, some (.engine "insert into reactions"))
  else
    match nextRowid (s.reactions.map (fun r => r.Id)) with
    | none => (s, some (.engine "insert into reactions: SQLITE_FULL"))
    | some id =>
      ({ s with reactions := s.reactions ++
          [{ Id := id, CommentId := reaction.Id, UserId := reaction.UserId,
             Emoji := reaction.Emoji, CreatedAt := now }] }, Option.none)

/-- One row of the `LEFT JOIN` in `GetCommentsAndReactionsByDraftId`, as `Scan`
receives it: five comment columns, four nullable reaction columns. -/
structure JoinedRow where
  commentId : Int
  userId : Int
  text : String
  parentCommentId : Option Int
  createdAt : Time
  reactionId : Option Int
  reactionUserId : Option Int
  reactionEmoji : Option String
  reactionCreatedAt : Option Time
deriving DecidableEq

/-- The rows `comments c LEFT JOIN reactions r ON c.Id = r.CommentId` yields for
one comment: one per matching reaction, or one with NULL reaction columns. -/
def joinedRowsOf (reactions : List ReactionRow) (c : Comment) : List JoinedRow :=
  match reactions.filter (fun r => c.Id == r.CommentId) with
  | [] => [⟨c.Id, c.UserId, c.Text, c.ParentCommentId, c.CreatedAt,
            Option.none, Option.none, Option.none, Option.none⟩]
  | r :: rs => (r :: rs).map (fun r => ⟨c.Id, c.UserId, c.Text, c.ParentCommentId, c.CreatedAt,
            some r.Id, some r.UserId, some r.Emoji, some r.CreatedAt⟩)

/-- `ORDER BY c.CreatedAt DESC`; rows with equal keys stay in scan order. -/
def orderByCreatedAtDesc (rows : List JoinedRow) : List JoinedRow :=
  rows.insertionSort (fun a b => a.createdAt ≥ b.createdAt)

/-- The query of `GetCommentsAndReactionsByDraftId`. -/
def commentsJoinReactions (s : Store) (draftId : Int) : List JoinedRow :=
  orderByCreatedAtDesc
    ((s.comments.filter (fun c => c.DraftId == draftId)).flatMap (joinedRowsOf s.reactions))

/-- The `common.Reaction` the loop body builds from a row whose reaction id is
valid; a NULL column reads as the zero value. -/
def scannedReaction (row : JoinedRow) : common.Reaction :=
  { Id := row.reactionId.getD 0, UserId := row.reactionUserId.getD 0,
    Emoji := row.reactionEmoji.getD "", CreatedAt := row.reactionCreatedAt.getD 0 }

/-- One turn of the `for rows.Next()` loop: `commentsMap` is kept as the list of
its entries, keys distinct, in the order the keys were first seen.  A new
comment starts with the literal `[]common.Reaction{}`, the empty slice that is
not `nil`. -/
def foldJoinedRow (commentsMap : List (Int × CommentWithReactions)) (row : JoinedRow) :
    List (Int × CommentWithReactions) :=
  if commentsMap.any (fun e => e.1 == row.commentId) then
    if row.reactionId.isSome then
      commentsMap.map (fun e =>
        if e.1 == row.commentId then
          (e.1, { e.2 with Reactions := sliceAppend e.2.Reactions (scannedReaction row) })
        else e)
    else commentsMap
  else
    commentsMap ++
      [(row.commentId,
        { Id := row.commentId, UserId := row.userId, Text := row.text,
          ParentCommentId := row.parentCommentId, CreatedAt := row.createdAt,
          Reactions :=
            if row.reactionId.isSome then sliceAppend (some []) (scannedReaction row)
            else some [] })]

/-- The whole row loop of `GetCommentsAndReactionsByDraftId`, from the empty map. -/
def foldJoinedRows (rows : List JoinedRow) : List (Int × CommentWithReactions) :=
  rows.foldl foldJoinedRow []

/-- `GetCommentsAndReactionsByDraftId`: the map entries as a slice.  Go ranges
over a map in an unspecified order; here the entries come in the order their
keys were first seen, and the theorems below hold for every reordering. -/
def GetCommentsAndReactionsByDraftId (s : Store) (refused : Bool) (draftId : Int) :
    Except Error (List CommentWithReactions) :=
  if refused then .error (.engine "select comments")
  else .ok ((foldJoinedRows (commentsJoinReactions s draftId)).map (fun e => e.2))

/-! ## Request surface (`pkg/api/handlers.go`) -/

/-- `strconv.Atoi`: an optional sign, then one or more decimal digits, the value
within the 64-bit range; `none` stands for the returned error. -/
def Atoi (str : String) : Option Int :=
  let digits : List Char :=
    match str.toList with
    | '-' :: r => r
    | '+' :: r => r
    | r => r
  let negative : Bool :=
    match str.toList with
    | '-' :: _ => true
    | _ => false
  if digits.isEmpty || !digits.all Char.isDigit then Option.none
  else
    let n : Int := ((digits.foldl (fun acc ch => acc * 10 + (ch.toNat - 48)) 0 : Nat) : Int)
    let v : Int := if negative then -n else n
    if v < minInt64 || v > maxInt64 then Option.none else some v

/-- What a handler writes as the response body: `text` is the message handed to
`http.Error`, `message` the value of the JSON field `message`, `drafts` a JSON
array of drafts. -/
inductive Payload where
  | text : String → Payload
  | message : String → Payload
  | drafts : List Draft → Payload
deriving DecidableEq

/-- The outcome of a handler: a status with a body, or no response at all when
the handler panics. -/
inductive Response where
  | reply : Nat → Payload → Response
  | aborted : Response
deriving DecidableEq

/-- `err.Error()`. -/
def Error.text : Error → String
  | .engine m => m
  | .nilDereference => "invalid memory address or nil pointer dereference"

/-- `addDraft`: `body` is what decoding the request body gives. -/
def addDraft (s : Store) (env : Env) (body : Except String common.Draft) : Store × Response :=
  match body with
  | .error e => (s, .reply 400 (.text e))
  | .ok draft =>
    let newDraft : common.Draft := { Name := draft.Name, Content := draft.Content, VersionNumber := 0 }
    match CreateDraft s env newDraft with
    | (s1, some .nilDereference) => (s1, .aborted)
    | (s1, some e) => (s1, .reply 500 (.text e.text))
    | (s1, Option.none) => (s1, .reply 200 (.message "Draft added successfully"))

/-- `getMostRecentDrafts`: `limitParam` is `r.URL.Query().Get("limit")`, empty
when the parameter is absent. -/
def getMostRecentDrafts (s : Store) (refused : Bool) (limitParam : String) : Response :=
  match (if limitParam != "" then Atoi limitParam else some 1) with
  | Option.none => .reply 400 (.text "Invalid limit parameter")
  | some limit =>
    match GetLatestDrafts s refused limit with
    | .error e => .reply 500 (.text e.text)
    | .ok recentDrafts => .reply 200 (.drafts recentDrafts)

/-- `addReaction`: `commentIdStr` is the path variable, `body` is what decoding
the request body gives. -/
def addReaction (s : Store) (refused : Bool) (now : Time) (commentIdStr : Option String)
    (body : Except String common.Reaction) : Store × Response :=
  match commentIdStr with
  | Option.none => (s, .reply 400 (.text "Comment ID is required"))
  | some str =>
    match Atoi str with
    | Option.none => (s, .reply 400 (.text "Invalid Comment ID"))
    | some commentId =>
      match body with
      | .error _ => (s, .reply 400 (.text "Invalid request body"))
      | .ok newReaction =>
        if !isOnlySupportedEmojis newReaction.Emoji then (s, .reply 400 (.text "Invalid emoji"))
        else
          let reaction : common.Reaction :=
            { Id := commentId, UserId := newReaction.UserId, Emoji := newReaction.Emoji,
              CreatedAt := 0 }
          match AddReactionToComment s refused now reaction with
          | (s1, some _) => (s1, .reply 500 (.text "Failed to add reaction"))
          | (s1, Option.none) => (s1, .reply 201 (.message "Reaction added successfully"))

/-! ## Runs and invariants -/

/-- Successive `CreateDraft` calls, one after the other: the store left behind
and the `error` each call returned, in call order. -/
def CreateDrafts : Store → List (Env × common.Draft) → Store × List (Option Error)
  | s, [] => (s, [])
  | s, call :: rest =>
    ((CreateDrafts (CreateDraft s call.1 call.2).1 rest).1,
     (CreateDraft s call.1 call.2).2 :: (CreateDrafts (CreateDraft s call.1 call.2).1 rest).2)

/-- The store after `j` successful drafts under the one name `X`. -/
def SingleDocState (X : String) (j : Nat) (s : Store) : Prop :=
  (if j = 0 then s.documents = [] else ∃ t0, s.documents = [⟨1, X, (j : Int), t0⟩]) ∧
  (s.drafts.map (fun d => d.Id)).foldl max 0 = (j : Int) ∧
  s.drafts.map (fun d => d.VersionNumber) = (List.range' 1 j).map (fun n : Nat => (n : Int)) ∧
  (∀ d ∈ s.drafts, d.DocumentId = 1)

/-- The store states that `CreateDraft` calls lead to from the empty store,
whatever the calls return. -/
inductive Reachable : Store → Prop
  | empty : Reachable Store.empty
  | step {s : Store} (env : Env) (draft : common.Draft) :
      Reachable s → Reachable (CreateDraft s env draft).1

/-- The drafts of a document: the rows of `drafts` that carry its id. -/
def draftsOf (s : Store) (D : Document) : List Draft :=
  s.drafts.filter (fun d => d.DocumentId == D.Id)

/-- Version monotonicity as the specification states it for one document: the
latest version is the number of its drafts and the largest of their version
numbers. -/
def VersionInvariant (s : Store) (D : Document) : Prop :=
  D.LatestVersion = ((draftsOf s D).length : Int) ∧
  (∃ d ∈ draftsOf s D, d.VersionNumber = D.LatestVersion) ∧
  (∀ d ∈ draftsOf s D, d.VersionNumber ≤ D.LatestVersion)

/-- A surrounding in which the engine refuses the draft insert and nothing else. -/
def Env.draftInsertRefused (nowDocument nowDraft : Time) : Env :=
  { faults := { Faults.none with insertDraft := true },
    nowDocument := nowDocument, nowDraft := nowDraft }

/-- Example store: document `A` with its one draft `x`. -/
def storeOneDraft : Store :=
  { documents := [⟨1, "A", 1, 10⟩], drafts := [⟨1, 1, "x", 1, 11⟩], comments := [],
    reactions := [] }

/-- Example store: document `A` with drafts `x` (version 1) and `y` (version 2). -/
def storeTwoDrafts : Store :=
  { documents := [⟨1, "A", 2, 10⟩], drafts := [⟨1, 1, "x", 1, 11⟩, ⟨2, 1, "y", 2, 21⟩],
    comments := [], reactions := [] }

/-- Example store: document `A` with its one draft `Hello`. -/
def storeHello : Store :=
  { documents := [⟨1, "A", 1, 10⟩], drafts := [⟨1, 1, "Hello", 1, 11⟩], comments := [],
    reactions := [] }

/-! ## Reference functions for the comment fold -/

/-- The reactions that a row sequence carries for comment `k`, in row order. -/
def rowReactions (k : Int) (rows : List JoinedRow) : List common.Reaction :=
  (rows.filter (fun r => r.commentId == k && r.reactionId.isSome)).map scannedReaction

/-- The first row of each comment id that is not among `seen`, in row order. -/
def firstRows : List Int → List JoinedRow → List JoinedRow
  | _, [] => []
  | seen, r :: rest =>
    if r.commentId ∈ seen then firstRows seen rest
    else r :: firstRows (seen ++ [r.commentId]) rest

/-- The entry expected for the comment whose first row is `r`: the scalar
fields of `r` and, in a slice that is not `nil`, every reaction the rows carry
for that comment. -/
def entryOfRow (rows : List JoinedRow) (r : JoinedRow) : CommentWithReactions :=
  { Id := r.commentId, UserId := r.userId, Text := r.text,
    ParentCommentId := r.parentCommentId, CreatedAt := r.createdAt,
    Reactions := some (rowReactions r.commentId rows) }

/-- A slice after the elements `l` have been appended one by one: unchanged when
`l` is empty, not `nil` otherwise. -/
def sliceExtend {α : Type} (s : Option (List α)) (l : List α) : Option (List α) :=
  match l with
  | [] => s
  | x :: rest => some (sliceElems s ++ x :: rest)

/-- A stored reaction as `common.Reaction` presents it. -/
def reactionOf (r : ReactionRow) : common.Reaction :=
  { Id := r.Id, UserId := r.UserId, Emoji := r.Emoji, CreatedAt := r.CreatedAt }

/-- The comments of a draft: the rows of `comments` that carry its id. -/
def commentsOf (s : Store) (draftId : Int) : List Comment :=
  s.comments.filter (fun c => c.DraftId == draftId)

/-- The stored reactions of comment `k`, as `common.Reaction`, in table order. -/
def reactionsOfComment (s : Store) (k : Int) : List common.Reaction :=
  (s.reactions.filter (fun r => k == r.CommentId)).map reactionOf

/-- Example store: comments 1 and 2 on draft 1, comment 3 on draft 2; two
reactions on comment 1 and one on comment 3. -/
def storeComments : Store :=
  { documents := [⟨1, "A", 2, 10⟩], drafts := [⟨1, 1, "x", 1, 11⟩, ⟨2, 1, "y", 2, 21⟩],
    comments := [⟨1, 1, 1, "hi", none, 30⟩, ⟨2, 1, 1, "yo", some 1, 31⟩,
                 ⟨3, 2, 1, "other", none, 32⟩],
    reactions := [⟨1, 1, 7, thumbsUp, 40⟩, ⟨2, 1, 8, thumbsUp, 41⟩, ⟨3, 3, 8, thumbsUp, 42⟩] }

/-- The store states that `CreateDraft` calls lead to from the empty store when
every call returns `nil`. -/
inductive ReachableOk : Store → Prop
  | empty : ReachableOk Store.empty
  | step {s s' : Store} (env : Env) (draft : common.Draft) :
      ReachableOk s → CreateDraft s env draft = (s', none) → ReachableOk s'

/-- The ids `1, 2, ..., n` as an `AUTOINCREMENT` key hands them out. -/
def firstIds (n : Nat) : List Int :=
  (List.range' 1 n).map (fun k : Nat => (k : Int))

/-- What successful `CreateDraft` calls keep true of the store: ids are handed
out in sequence, document names are distinct, every draft belongs to a stored
document, and every document satisfies `VersionInvariant`. -/
def DraftStoreInvariant (s : Store) : Prop :=
  s.documents.map (fun d => d.Id) = firstIds s.documents.length ∧
  s.drafts.map (fun d => d.Id) = firstIds s.drafts.length ∧
  (s.documents.map (fun d => d.Name)).Nodup ∧
  (∀ d ∈ s.drafts, ∃ D ∈ s.documents, D.Id = d.DocumentId) ∧
  (∀ D ∈ s.documents, VersionInvariant s D)

/-- The store states that `CreateDraft`, `AddCommentToDraft` and
`AddReactionToComment` calls lead to from the empty store, whatever their
arguments and whatever they return. -/
inductive ReachableByWrites : Store → Prop
  | empty : ReachableByWrites Store.empty
  | createDraft {s : Store} (env : Env) (draft : common.Draft) :
      ReachableByWrites s → ReachableByWrites (CreateDraft s env draft).1
  | addComment {s : Store} (refused : Bool) (now : Time) (comment : Comment) :
      ReachableByWrites s → ReachableByWrites (AddCommentToDraft s refused now comment).1
  | addReaction {s : Store} (refused : Bool) (now : Time) (reaction : common.Reaction) :
      ReachableByWrites s → ReachableByWrites (AddReactionToComment s refused now reaction).1

/-- Every draft refers to a stored document. -/
def DraftsReferToDocuments (s : Store) : Prop :=
  ∀ d ∈ s.drafts, ∃ D ∈ s.documents, D.Id = d.DocumentId

/-- Referential integrity as the specification states it: every draft refers to
a stored document, every comment to a stored draft, every reaction to a stored
comment, and a comment's parent, when it has one, to another stored comment. -/
def ReferentialIntegrity (s : Store) : Prop :=
  DraftsReferToDocuments s ∧
  (∀ c ∈ s.comments, ∃ d ∈ s.drafts, d.Id = c.DraftId) ∧
  (∀ r ∈ s.reactions, ∃ c ∈ s.comments, c.Id = r.CommentId) ∧
  (∀ c ∈ s.comments, ∀ p, c.ParentCommentId = some p →
    ∃ c' ∈ s.comments, c'.Id = p ∧ c'.Id ≠ c.Id)

/-! ## Validation: lemmas -/

theorem isSupportedEmoji_iff (c : Char) :
    isSupportedEmoji (runeOf c) = true ↔ InPermittedRange c.toNat := by
  unfold isSupportedEmoji runeOf InPermittedRange
  simp only [Bool.or_eq_true, Bool.and_eq_true, decide_eq_true_eq, ge_iff_le]
  omega

theorem isOnlySupportedEmojisLoop_iff (l : List Char) :
    isOnlySupportedEmojisLoop l = true ↔ ∀ c ∈ l, InPermittedRange c.toNat := by
  induction l with
  | nil => simp [isOnlySupportedEmojisLoop]
  | cons c rest ih =>
    by_cases h : isSupportedEmoji (runeOf c) = true
    · have hc := (isSupportedEmoji_iff c).mp h
      simp [isOnlySupportedEmojisLoop, h, ih, hc]
    · have hc : ¬ InPermittedRange c.toNat := fun hp => h ((isSupportedEmoji_iff c).mpr hp)
      simp [isOnlySupportedEmojisLoop, h, hc]

theorem not_permitted_of_asciiLetter (c : Char) (h : IsAsciiLetter c) :
    ¬ InPermittedRange c.toNat := by
  unfold IsAsciiLetter at h
  unfold InPermittedRange
  omega

/-! ## Validation: the claims -/

/-- C4: `isOnlySupportedEmojis s` is true exactly when every code point of `s`
lies in one of the eight permitted ranges; it is true of the empty string, true
of U+1F44D, and false of every string that contains an ASCII letter. -/
theorem isOnlySupportedEmojis_spec :
    (∀ s : String, isOnlySupportedEmojis s = true ↔ IsPermittedEmojiString s) ∧
    isOnlySupportedEmojis "" = true ∧
    (thumbsUp.toList.map Char.toNat = [0x1F44D] ∧ isOnlySupportedEmojis thumbsUp = true) ∧
    (∀ s : String, (∃ c ∈ s.toList, IsAsciiLetter c) → isOnlySupportedEmojis s = false) := by
  refine ⟨fun s => isOnlySupportedEmojisLoop_iff s.toList, by decide, ⟨by decide, by decide⟩, ?_⟩
  rintro s ⟨c, hc, hl⟩
  cases hv : isOnlySupportedEmojis s with
  | false => rfl
  | true =>
    exact absurd ((isOnlySupportedEmojisLoop_iff s.toList).mp hv c hc)
      (not_permitted_of_asciiLetter c hl)

/-- Witness for C4: the single letter `A` is rejected. -/
theorem isOnlySupportedEmojis_spec_witness :
    (∃ c ∈ "A".toList, IsAsciiLetter c) ∧ isOnlySupportedEmojis "A" = false :=
  ⟨⟨'A', by decide, Or.inl ⟨by decide, by decide⟩⟩,
   isOnlySupportedEmojis_spec.2.2.2 "A" ⟨'A', by decide, Or.inl ⟨by decide, by decide⟩⟩⟩

/-- C5: the validator is closed under concatenation. -/
theorem isOnlySupportedEmojis_append (a b : String)
    (ha : isOnlySupportedEmojis a = true) (hb : isOnlySupportedEmojis b = true) :
    isOnlySupportedEmojis (a ++ b) = true := by
  unfold isOnlySupportedEmojis at *
  rw [isOnlySupportedEmojisLoop_iff] at *
  intro c hc
  have hd : (a ++ b).toList = a.toList ++ b.toList := String.data_append a b
  rw [hd, List.mem_append] at hc
  rcases hc with hc | hc
  · exact ha c hc
  · exact hb c hc

/-- Witness for C5: thumbs-up followed by thumbs-up. -/
theorem isOnlySupportedEmojis_append_witness :
    isOnlySupportedEmojis thumbsUp = true ∧ isOnlySupportedEmojis thumbsUp = true ∧
    isOnlySupportedEmojis (thumbsUp ++ thumbsUp) = true :=
  ⟨by decide, by decide, isOnlySupportedEmojis_append thumbsUp thumbsUp (by decide) (by decide)⟩


/-! ## CreateDraft: lemmas -/

theorem createDocument_found (s : Store) (env : Env) (name : String) (found : Document)
    (hf : s.documents.find? (fun d => d.Name == name) = some found) :
    createDocument s env name =
      if env.faults.selectByName then (s, .error (.engine "select document by name"))
      else if env.faults.updateVersion then (s, .error (.engine "update documents"))
      else ({ s with documents := s.documents.map (fun d =>
                if d.Name == found.Name then
                  { d with LatestVersion := wrapInt64 (found.LatestVersion + 1) } else d) },
            .ok (some { found with LatestVersion := wrapInt64 (found.LatestVersion + 1) })) := by
  cases h1 : env.faults.selectByName <;> cases h2 : env.faults.updateVersion <;>
    simp [createDocument, GetDocumentByName, incrementDocumentVersion, hf, h1, h2]

theorem createDocument_new (s : Store) (env : Env) (name : String)
    (hf : s.documents.find? (fun d => d.Name == name) = none) :
    createDocument s env name =
      if env.faults.selectByName then (s, .error (.engine "select document by name"))
      else match insertDocument s env.faults.insertDocument name env.nowDocument with
        | .error e => (s, .error e)
        | .ok (s1, id) => (s1, GetDocumentById s1 env.faults.selectById id) := by
  cases h1 : env.faults.selectByName <;>
    simp [createDocument, GetDocumentByName, hf, h1]

theorem CreateDraft_ok_found (s s' : Store) (env : Env) (draft : common.Draft) (found : Document)
    (hf : s.documents.find? (fun d => d.Name == draft.Name) = some found)
    (h : CreateDraft s env draft = (s', none)) :
    ∃ id, nextRowid (s.drafts.map (fun d => d.Id)) = some id ∧
      s' = { documents := s.documents.map (fun d =>
                if d.Name == found.Name then
                  { d with LatestVersion := wrapInt64 (found.LatestVersion + 1) } else d),
             drafts := s.drafts ++ [{ Id := id, DocumentId := found.Id, Content := draft.Content,
                                      VersionNumber := wrapInt64 (found.LatestVersion + 1),
                                      CreatedAt := env.nowDraft }],
             comments := s.comments, reactions := s.reactions } := by
  unfold CreateDraft at h
  rw [createDocument_found s env draft.Name found hf] at h
  cases h0 : env.faults.beginTx <;> cases h1 : env.faults.selectByName <;>
    cases h2 : env.faults.updateVersion <;> cases h3 : env.faults.insertDraft <;>
    cases h4 : env.faults.commitTx <;>
    cases hn : nextRowid (List.map (fun d => d.Id) s.drafts) <;>
    simp [h0, h1, h2, h3, h4, hn, insertDraft] at h
  refine ⟨_, rfl, ?_⟩
  rw [← h]
  simp

theorem CreateDraft_ok_new (s s' : Store) (env : Env) (draft : common.Draft)
    (hf : s.documents.find? (fun d => d.Name == draft.Name) = none)
    (h : CreateDraft s env draft = (s', none)) :
    ∃ docId id doc, nextRowid (s.documents.map (fun d => d.Id)) = some docId ∧
      (s.documents ++ [(⟨docId, draft.Name, 1, env.nowDocument⟩ : Document)]).find?
          (fun d => d.Id == docId) = some doc ∧
      nextRowid (s.drafts.map (fun d => d.Id)) = some id ∧
      s' = { documents := s.documents ++ [{ Id := docId, Name := draft.Name, LatestVersion := 1,
                                            CreatedAt := env.nowDocument }],
             drafts := s.drafts ++ [{ Id := id, DocumentId := doc.Id, Content := draft.Content,
                                      VersionNumber := doc.LatestVersion,
                                      CreatedAt := env.nowDraft }],
             comments := s.comments, reactions := s.reactions } := by
  unfold CreateDraft at h
  rw [createDocument_new s env draft.Name hf] at h
  cases h0 : env.faults.beginTx <;> cases h1 : env.faults.selectByName <;>
    cases h2 : env.faults.insertDocument <;> cases h5 : env.faults.selectById <;>
    cases hd : nextRowid (List.map (fun d => d.Id) s.documents) <;>
    simp only [h0, h1, h2, h5, hd, insertDocument, GetDocumentById, if_true, if_false,
      Bool.false_eq_true, reduceCtorEq, Prod.mk.injEq, and_false] at h
  rename_i docId
  generalize hfd : List.find? (fun d => d.Id == docId)
    (s.documents ++ [(⟨docId, draft.Name, 1, env.nowDocument⟩ : Document)]) = fd at h
  cases fd with
  | none => simp at h
  | some doc =>
    cases h3 : env.faults.insertDraft <;>
    cases h4 : env.faults.commitTx <;>
    cases hn : nextRowid (List.map (fun d => d.Id) s.drafts) <;>
    simp [h3, h4, hn, insertDraft] at h
    refine ⟨docId, _, doc, rfl, hfd, rfl, ?_⟩
    rw [← h]

theorem wrapInt64_of_inRange (x : Int) (h1 : minInt64 ≤ x) (h2 : x ≤ maxInt64) :
    wrapInt64 x = x := by
  unfold wrapInt64
  unfold minInt64 at h1
  unfold maxInt64 at h2
  omega

theorem foldl_max_concat (l : List Int) (a : Int) :
    (l ++ [a]).foldl max 0 = max (l.foldl max 0) a := by
  simp [List.foldl_append]

theorem nextRowid_eq_some (ids : List Int) (id : Int) (h : nextRowid ids = some id) :
    ids.foldl max 0 < maxInt64 ∧ id = ids.foldl max 0 + 1 := by
  unfold nextRowid at h
  split at h
  · rename_i hlt
    simp at h
    exact ⟨hlt, h.symm⟩
  · simp at h

theorem SingleDocState_step (X : String) (j : Nat) (s s' : Store) (env : Env)
    (draft : common.Draft) (hinv : SingleDocState X j s) (hname : draft.Name = X)
    (h : CreateDraft s env draft = (s', none)) : SingleDocState X (j + 1) s' := by
  obtain ⟨hdocs, hmax, hvers, hdoc⟩ := hinv
  by_cases hj : j = 0
  · subst hj
    simp only [if_true] at hdocs
    have hf : s.documents.find? (fun d => d.Name == draft.Name) = none := by simp [hdocs]
    obtain ⟨docId, id, doc, hd, hfd, hn, hs⟩ := CreateDraft_ok_new s s' env draft hf h
    have h1 := nextRowid_eq_some _ _ hd
    have h2 := nextRowid_eq_some _ _ hn
    rw [hmax] at h2
    simp [hdocs] at h1
    obtain ⟨-, h2⟩ := h2
    simp [hdocs, h1] at hfd
    subst hfd
    subst hs
    refine ⟨?_, ?_, ?_, ?_⟩
    · simp [hdocs, h1, hname]
    · simp only [List.map_append, foldl_max_concat, hmax, List.map_cons, List.map_nil]
      simp [h2]
    · simp at hvers
      simp [hvers]
    · intro d hd
      simp at hd
      rcases hd with hd | hd
      · exact hdoc d hd
      · simp [hd, h1]
  · simp only [hj, if_false] at hdocs
    obtain ⟨t0, hdocs⟩ := hdocs
    have hf : s.documents.find? (fun d => d.Name == draft.Name) = some ⟨1, X, (j : Int), t0⟩ := by
      simp [hdocs, hname]
    obtain ⟨id, hn, hs⟩ := CreateDraft_ok_found s s' env draft _ hf h
    have h2 := nextRowid_eq_some _ _ hn
    rw [hmax] at h2
    obtain ⟨hlt, h2⟩ := h2
    have hw : wrapInt64 ((j : Int) + 1) = (j : Int) + 1 := by
      apply wrapInt64_of_inRange
      · unfold minInt64; omega
      · omega
    subst hs
    refine ⟨?_, ?_, ?_, ?_⟩
    · simp [hdocs, hw]
    · simp only [List.map_append, foldl_max_concat, hmax, List.map_cons, List.map_nil, h2]
      omega
    · simp only [List.map_append, hvers, List.map_cons, List.map_nil, hw]
      rw [List.range'_concat]
      simp
      omega
    · intro d hd
      simp at hd
      rcases hd with hd | hd
      · exact hdoc d hd
      · simp [hd]

theorem SingleDocState_run (X : String) (calls : List (Env × common.Draft)) :
    ∀ (j : Nat) (s : Store), SingleDocState X j s →
      (∀ c ∈ calls, c.2.Name = X) →
      (∀ e ∈ (CreateDrafts s calls).2, e = none) →
      SingleDocState X (j + calls.length) (CreateDrafts s calls).1 := by
  induction calls with
  | nil => intro j s hinv _ _; simpa [CreateDrafts] using hinv
  | cons call rest ih =>
    intro j s hinv hnames hok
    simp only [CreateDrafts, List.mem_cons, forall_eq_or_imp] at hok
    have hstep := SingleDocState_step X j s (CreateDraft s call.1 call.2).1 call.1 call.2 hinv
      (hnames call (List.mem_cons_self _ _)) (Prod.ext rfl hok.1)
    have := ih (j + 1) _ hstep (fun c hc => hnames c (List.mem_cons_of_mem _ hc)) hok.2
    simp only [CreateDrafts, List.length_cons]
    have e : j + (rest.length + 1) = j + 1 + rest.length := by omega
    rw [e]
    exact this

/-- C1: from the empty store, `k ≥ 1` successive `CreateDraft` calls under one
name `X`, each returning `nil`, leave exactly one document named `X`; its
`LatestVersion` is `k`, and its drafts are `k` rows whose version numbers are
`1, 2, ..., k` in insertion order. -/
theorem CreateDraft_same_name_versions (X : String) (calls : List (Env × common.Draft))
    (hk : 1 ≤ calls.length) (hname : ∀ c ∈ calls, c.2.Name = X)
    (hok : ∀ e ∈ (CreateDrafts Store.empty calls).2, e = none) :
    ∃ D : Document,
      (CreateDrafts Store.empty calls).1.documents.filter (fun d => d.Name == X) = [D] ∧
      D.LatestVersion = (calls.length : Int) ∧
      ((CreateDrafts Store.empty calls).1.drafts.filter (fun d => d.DocumentId == D.Id)).map
          (fun d => d.VersionNumber) = (List.range' 1 calls.length).map (fun n : Nat => (n : Int)) ∧
      ((CreateDrafts Store.empty calls).1.drafts.filter (fun d => d.DocumentId == D.Id)).length
        = calls.length := by
  have h0 : SingleDocState X 0 Store.empty := by
    simp [SingleDocState, Store.empty]
  have h := SingleDocState_run X calls 0 Store.empty h0 hname hok
  simp only [Nat.zero_add] at h
  obtain ⟨hdocs, -, hvers, hdoc⟩ := h
  have hk' : calls.length ≠ 0 := by omega
  simp only [hk', if_false] at hdocs
  obtain ⟨t0, hdocs⟩ := hdocs
  have hall : (CreateDrafts Store.empty calls).1.drafts.filter (fun d => d.DocumentId == 1)
      = (CreateDrafts Store.empty calls).1.drafts := by
    apply List.filter_eq_self.mpr
    intro d hd
    simp [hdoc d hd]
  refine ⟨⟨1, X, (calls.length : Int), t0⟩, ?_, rfl, ?_, ?_⟩
  · simp [hdocs]
  · simp only [hall, hvers]
  · simp only [hall]
    have hlen := congrArg List.length hvers
    rw [List.length_map, List.length_map, List.length_range'] at hlen
    exact hlen

/-- Witness for C1: two drafts named `A` from the empty store. -/
theorem CreateDraft_same_name_versions_witness :
    (∀ e ∈ (CreateDrafts Store.empty
        [(Env.calm 10 11, ⟨"A", "x", 0⟩), (Env.calm 20 21, ⟨"A", "y", 0⟩)]).2, e = none) ∧
    ∃ D : Document,
      (CreateDrafts Store.empty
        [(Env.calm 10 11, ⟨"A", "x", 0⟩), (Env.calm 20 21, ⟨"A", "y", 0⟩)]).1.documents.filter
          (fun d => d.Name == "A") = [D] ∧
      D.LatestVersion = 2 :=
  ⟨by decide,
   (CreateDraft_same_name_versions "A"
      [(Env.calm 10 11, ⟨"A", "x", 0⟩), (Env.calm 20 21, ⟨"A", "y", 0⟩)]
      (by decide) (by decide) (by decide)).imp (fun _ h => ⟨h.1, h.2.1⟩)⟩

/-- C3, the code at the failing input: with the draft insert refused,
`CreateDraft` on the empty store returns the error and leaves a document row
behind; on a store that has document `A` at version 1 it returns the error and
leaves the document at version 2 with still one draft.  So it is not the case
that a call returning an error leaves the store as it was. -/
theorem CreateDraft_error_keeps_document_write :
    CreateDraft Store.empty (Env.draftInsertRefused 10 11) ⟨"A", "x", 0⟩
      = ({ documents := [⟨1, "A", 1, 10⟩], drafts := [], comments := [], reactions := [] },
         some (.engine "insert into drafts")) ∧
    CreateDraft storeOneDraft (Env.draftInsertRefused 20 21) ⟨"A", "y", 0⟩
      = ({ documents := [⟨1, "A", 2, 10⟩], drafts := [⟨1, 1, "x", 1, 11⟩],
           comments := [], reactions := [] },
         some (.engine "insert into drafts")) ∧
    ¬ (∀ (s : Store) (env : Env) (draft : common.Draft),
        (CreateDraft s env draft).2 ≠ none → (CreateDraft s env draft).1 = s) := by
  refine ⟨by decide, by decide, fun hall => ?_⟩
  have h := hall Store.empty (Env.draftInsertRefused 10 11) ⟨"A", "x", 0⟩ (by decide)
  exact absurd h (by decide)

/-- C2, the code at the failing input: the store reached by one successful
draft for `A` followed by a second draft for `A` whose insert the engine
refuses has document `A` at version 2 with one draft, of version 1. -/
theorem VersionInvariant_broken_after_failed_call :
    Reachable (CreateDrafts Store.empty
      [(Env.calm 10 11, ⟨"A", "x", 0⟩), (Env.draftInsertRefused 20 21, ⟨"A", "y", 0⟩)]).1 ∧
    (CreateDrafts Store.empty
      [(Env.calm 10 11, ⟨"A", "x", 0⟩), (Env.draftInsertRefused 20 21, ⟨"A", "y", 0⟩)]).1
      = { documents := [⟨1, "A", 2, 10⟩], drafts := [⟨1, 1, "x", 1, 11⟩],
          comments := [], reactions := [] } ∧
    ¬ (∀ s, Reachable s → ∀ D ∈ s.documents, VersionInvariant s D) := by
  have hr : Reachable (CreateDrafts Store.empty
      [(Env.calm 10 11, ⟨"A", "x", 0⟩), (Env.draftInsertRefused 20 21, ⟨"A", "y", 0⟩)]).1 :=
    Reachable.step _ _ (Reachable.step _ _ Reachable.empty)
  have he : (CreateDrafts Store.empty
      [(Env.calm 10 11, ⟨"A", "x", 0⟩), (Env.draftInsertRefused 20 21, ⟨"A", "y", 0⟩)]).1
      = { documents := [⟨1, "A", 2, 10⟩], drafts := [⟨1, 1, "x", 1, 11⟩],
          comments := [], reactions := [] } := by decide
  refine ⟨hr, he, fun hall => ?_⟩
  have hv := hall _ hr ⟨1, "A", 2, 10⟩ (by rw [he]; simp)
  rw [he] at hv
  exact absurd hv.1 (by decide)
/-! ## Counting the rows a positive limit keeps -/

theorem topCount_sorted (l : List Int) (hs : l.Pairwise (fun a b => a > b)) :
    ∀ k : Nat, (l.filter (fun a =>
        decide ((l.filter (fun b => decide (b > a))).length < k))).length = min k l.length := by
  induction l with
  | nil => intro k; simp
  | cons a t ih =>
    intro k
    rw [List.pairwise_cons] at hs
    have ha : (List.filter (fun b => decide (b > a)) (a :: t)) = [] := by
      rw [List.filter_eq_nil_iff]
      intro b hb
      rcases List.mem_cons.mp hb with rfl | hb
      · simp
      · have := hs.1 b hb
        simp only [decide_eq_true_eq]
        omega
    have ht : t.filter (fun x =>
        decide ((List.filter (fun b => decide (b > x)) (a :: t)).length < k))
        = t.filter (fun x => decide ((t.filter (fun b => decide (b > x))).length < k - 1)) := by
      apply List.filter_congr
      intro x hx
      have hax := hs.1 x hx
      have : List.filter (fun b => decide (b > x)) (a :: t)
          = a :: List.filter (fun b => decide (b > x)) t := by
        simp [List.filter_cons, hax]
      rw [this, List.length_cons]
      rw [Bool.eq_iff_iff]
      simp only [decide_eq_true_eq]
      omega
    rw [List.filter_cons, ha, ht]
    have iht := ih hs.2 (k - 1)
    by_cases hk : 0 < k
    · simp only [List.length_nil, hk, decide_True, if_true, List.length_cons, iht]
      omega
    · have hk0 : k = 0 := by omega
      subst hk0
      simp only [List.length_nil, lt_self_iff_false, decide_False, iht]
      simp

theorem topCount_perm (l l' : List Int) (h : l.Perm l') (k : Nat) :
    (l.filter (fun a => decide ((l.filter (fun b => decide (b > a))).length < k))).length
      = (l'.filter (fun a =>
          decide ((l'.filter (fun b => decide (b > a))).length < k))).length := by
  have hp : (fun a => decide ((l.filter (fun b => decide (b > a))).length < k))
      = (fun a => decide ((l'.filter (fun b => decide (b > a))).length < k)) := by
    funext a
    rw [(h.filter _).length_eq]
  rw [hp]
  exact (h.filter _).length_eq

theorem topCount_nodup (l : List Int) (hnd : l.Nodup) (k : Nat) :
    (l.filter (fun a => decide ((l.filter (fun b => decide (b > a))).length < k))).length
      = min k l.length := by
  have hperm : (l.insertionSort (fun a b => a ≥ b)).Perm l := List.perm_insertionSort _ l
  have hsorted : (l.insertionSort (fun a b => a ≥ b)).Sorted (fun a b => a ≥ b) :=
    List.sorted_insertionSort _ l
  have hnd' : (l.insertionSort (fun a b => a ≥ b)).Pairwise (fun a b => a ≠ b) :=
    hperm.nodup_iff.mpr hnd
  have hstrict : (l.insertionSort (fun a b => a ≥ b)).Pairwise (fun a b => a > b) :=
    (List.Pairwise.and hsorted hnd').imp (fun h => by omega)
  rw [topCount_perm l _ hperm.symm k, topCount_sorted _ hstrict k, hperm.length_eq]

theorem countNewerDrafts_within (drafts : List Draft) (X : Int) (d : Draft)
    (hd : d.DocumentId = X) :
    countNewerDrafts drafts d =
      (((drafts.filter (fun e => e.DocumentId == X)).map (fun e => e.Id)).filter
        (fun b => decide (b > d.Id))).length := by
  unfold countNewerDrafts
  rw [List.filter_map, List.length_map, List.filter_filter, hd]
  congr 1
  apply List.filter_congr
  intro e _
  simp [Function.comp, Bool.and_comm]

theorem keptDrafts_count (drafts : List Draft) (limit : Int) (h : 0 < limit) (X : Int)
    (hnd : (drafts.map (fun d => d.Id)).Nodup) :
    ((drafts.filter (fun d => decide ((countNewerDrafts drafts d : Int) < limit))).filter
        (fun d => d.DocumentId == X)).length
      = min limit.toNat (drafts.filter (fun d => d.DocumentId == X)).length := by
  have hL : ((drafts.filter (fun d => d.DocumentId == X)).map (fun d => d.Id)).Nodup :=
    List.Nodup.sublist ((List.filter_sublist _).map _) hnd
  have key := topCount_nodup _ hL limit.toNat
  rw [List.filter_map, List.length_map, List.length_map] at key
  rw [List.filter_comm, ← key]
  congr 1
  apply List.filter_congr
  intro d hd
  have hdX : d.DocumentId = X := by simpa using (List.mem_filter.mp hd).2
  rw [countNewerDrafts_within drafts X d hdX, List.filter_map, List.length_map]
  simp only [Function.comp]
  rw [Bool.eq_iff_iff]
  simp only [decide_eq_true_eq, List.filter_map, List.length_map]
  omega

theorem keptDrafts_newest (drafts : List Draft) (limit : Int) (d d' : Draft)
    (hd : (countNewerDrafts drafts d : Int) < limit)
    (hd' : ¬ (countNewerDrafts drafts d' : Int) < limit)
    (hdoc : d'.DocumentId = d.DocumentId) : d'.Id < d.Id := by
  by_contra hge
  have hsub : (drafts.filter (fun d2 => d2.DocumentId == d'.DocumentId && decide (d2.Id > d'.Id))).length
      ≤ (drafts.filter (fun d2 => d2.DocumentId == d.DocumentId && decide (d2.Id > d.Id))).length := by
    apply List.Sublist.length_le
    apply List.monotone_filter_right
    intro e he
    simp only [Bool.and_eq_true, beq_iff_eq, decide_eq_true_eq] at he ⊢
    exact ⟨he.1.trans hdoc, by omega⟩
  unfold countNewerDrafts at hd hd'
  omega

/-! ## GetLatestDrafts -/

theorem orderByVersionNumberDesc_perm (rows : List Draft) :
    (orderByVersionNumberDesc rows).Perm rows :=
  List.perm_insertionSort _ rows

theorem orderByVersionNumberDesc_sorted (rows : List Draft) :
    (orderByVersionNumberDesc rows).Sorted (fun a b => a.VersionNumber ≥ b.VersionNumber) := by
  haveI : IsTotal Draft (fun a b => a.VersionNumber ≥ b.VersionNumber) :=
    ⟨fun a b => le_total b.VersionNumber a.VersionNumber⟩
  haveI : IsTrans Draft (fun a b => a.VersionNumber ≥ b.VersionNumber) :=
    ⟨fun a b c hab hbc => le_trans hbc hab⟩
  exact List.sorted_insertionSort _ rows

/-- C7: for a positive limit, `GetLatestDrafts` returns exactly the drafts that
have fewer than `limit` drafts of the same document with a larger id, each as
often as it is stored (once, rows being distinct), sorted by version number in
non-increasing order.  These are the highest-id drafts of each document: a
draft left out has a smaller id than every returned draft of its document,
and, ids being keys, each document contributes `limit` drafts, or all of its
drafts when it has fewer. -/
theorem GetLatestDrafts_positive (s : Store) (limit : Int) (h : 0 < limit) :
    ∃ rows, GetLatestDrafts s false limit = .ok rows ∧
      (∀ d, d ∈ rows ↔ d ∈ s.drafts ∧
        ((s.drafts.filter (fun d2 => d2.DocumentId == d.DocumentId && decide (d2.Id > d.Id))).length
          : Int) < limit) ∧
      (∀ d, d ∈ rows → rows.count d = s.drafts.count d) ∧
      (s.drafts.Nodup → rows.Nodup) ∧
      rows.Sorted (fun a b => a.VersionNumber ≥ b.VersionNumber) ∧
      (∀ d ∈ rows, ∀ d' ∈ s.drafts, d'.DocumentId = d.DocumentId → d' ∉ rows → d'.Id < d.Id) ∧
      ((s.drafts.map (fun d => d.Id)).Nodup → ∀ X : Int,
        (rows.filter (fun d => d.DocumentId == X)).length
          = min limit.toNat (s.drafts.filter (fun d => d.DocumentId == X)).length) := by
  refine ⟨orderByVersionNumberDesc
      (s.drafts.filter (fun d => decide ((countNewerDrafts s.drafts d : Int) < limit))),
    by simp [GetLatestDrafts, h], ?_, ?_, ?_, orderByVersionNumberDesc_sorted _, ?_, ?_⟩
  · intro d
    rw [(orderByVersionNumberDesc_perm _).mem_iff]
    simp [countNewerDrafts]
  · intro d hd
    rw [(orderByVersionNumberDesc_perm _).mem_iff] at hd
    rw [(orderByVersionNumberDesc_perm _).count_eq]
    rw [List.count_filter]
    simpa using (List.mem_filter.mp hd).2
  · intro hnd
    exact (orderByVersionNumberDesc_perm _).nodup_iff.mpr (hnd.filter _)
  · intro d hd d' hd' hdoc hnot
    rw [(orderByVersionNumberDesc_perm _).mem_iff, List.mem_filter] at hd hnot
    have h1 : (countNewerDrafts s.drafts d : Int) < limit := by simpa using hd.2
    have h2 : ¬ (countNewerDrafts s.drafts d' : Int) < limit := by
      intro hlt
      exact hnot ⟨hd', by simpa using hlt⟩
    exact keptDrafts_newest s.drafts limit d d' h1 h2 hdoc
  · intro hnd X
    rw [((orderByVersionNumberDesc_perm _).filter _).length_eq]
    exact keptDrafts_count s.drafts limit h X hnd

/-- Witness for C7: two drafts of one document, limit 1. -/
theorem GetLatestDrafts_positive_witness :
    ∃ rows, GetLatestDrafts storeTwoDrafts false 1 = .ok rows ∧
      rows.Sorted (fun a b => a.VersionNumber ≥ b.VersionNumber) :=
  (GetLatestDrafts_positive storeTwoDrafts 1 (by decide)).imp
    (fun _ hr => ⟨hr.1, hr.2.2.2.2.1⟩)

/-- C8 fails as stated: with limit -1 the one stored draft is returned. -/
theorem GetLatestDrafts_negative_not_empty :
    GetLatestDrafts storeOneDraft false (-1)
      = .ok [⟨1, 1, "x", 1, 11⟩] ∧
    GetLatestDrafts storeOneDraft false (-1) ≠ .ok [] := by
  constructor
  · rfl
  · intro hc
    have hr : GetLatestDrafts storeOneDraft false (-1) = .ok [⟨1, 1, "x", 1, 11⟩] := rfl
    rw [hr] at hc
    cases hc

/-- C8 amended: for a negative limit, `GetLatestDrafts` returns every stored
draft, each as often as it is stored, sorted by version number in
non-increasing order. -/
theorem GetLatestDrafts_negative (s : Store) (limit : Int) (h : limit < 0) :
    ∃ rows, GetLatestDrafts s false limit = .ok rows ∧ rows.Perm s.drafts ∧
      rows.Sorted (fun a b => a.VersionNumber ≥ b.VersionNumber) := by
  have hn : ¬ limit > 0 := by omega
  exact ⟨orderByVersionNumberDesc s.drafts, by simp [GetLatestDrafts, hn],
    orderByVersionNumberDesc_perm _,
    orderByVersionNumberDesc_sorted _⟩

/-- Witness for C8 amended: limit -1 on a store with one draft. -/
theorem GetLatestDrafts_negative_witness :
    ∃ rows, GetLatestDrafts storeOneDraft false (-1) = .ok rows ∧
      rows.Perm [⟨1, 1, "x", 1, 11⟩] :=
  (GetLatestDrafts_negative _ (-1) (by decide)).imp (fun _ hr => ⟨hr.1, hr.2.1⟩)
/-! ## The drafts endpoint -/

theorem addDraft_ok (s s' : Store) (env : Env) (draft : common.Draft) (msg : Payload)
    (h : addDraft s env (.ok draft) = (s', .reply 200 msg)) :
    CreateDraft s env ⟨draft.Name, draft.Content, 0⟩ = (s', none) := by
  unfold addDraft at h
  simp only at h
  generalize CreateDraft s env ⟨draft.Name, draft.Content, 0⟩ = r at h
  obtain ⟨s1, e⟩ := r
  cases e with
  | none => simp at h; rw [h.1]
  | some e => cases e <;> simp at h

/-- C9 fails as stated: after drafts `x` and `y` for document `A`, the request
without a limit returns the `y` draft alone, not two drafts. -/
theorem getMostRecentDrafts_default_returns_one :
    addDraft Store.empty (Env.calm 10 11) (.ok ⟨"A", "x", 0⟩)
      = (storeOneDraft, .reply 200 (.message "Draft added successfully")) ∧
    addDraft storeOneDraft (Env.calm 20 21) (.ok ⟨"A", "y", 0⟩)
      = (storeTwoDrafts, .reply 200 (.message "Draft added successfully")) ∧
    getMostRecentDrafts storeTwoDrafts false "" = .reply 200 (.drafts [⟨2, 1, "y", 2, 21⟩]) ∧
    ¬ ∃ dy dx : Draft, getMostRecentDrafts storeTwoDrafts false "" = .reply 200 (.drafts [dy, dx]) := by
  refine ⟨by decide, by decide, by decide, ?_⟩
  rintro ⟨dy, dx, h⟩
  have hr : getMostRecentDrafts storeTwoDrafts false "" = .reply 200 (.drafts [⟨2, 1, "y", 2, 21⟩]) := by
    decide
  rw [hr] at h
  simp at h

/-- C9 amended: from the empty store, after two accepted posts of drafts `x`
and then `y` under one name, the request without a limit parameter answers 200
with exactly one draft: the `y` draft, of version 2. -/
theorem getMostRecentDrafts_default_after_two_posts (A x y : String) (v1 v2 : Int)
    (env1 env2 : Env) (s1 s2 : Store) (m1 m2 : Payload)
    (h1 : addDraft Store.empty env1 (.ok ⟨A, x, v1⟩) = (s1, .reply 200 m1))
    (h2 : addDraft s1 env2 (.ok ⟨A, y, v2⟩) = (s2, .reply 200 m2)) :
    getMostRecentDrafts s2 false ""
      = .reply 200 (.drafts [⟨2, 1, y, 2, env2.nowDraft⟩]) := by
  have c1 := addDraft_ok _ _ _ _ _ h1
  have c2 := addDraft_ok _ _ _ _ _ h2
  simp only at c1 c2
  have hf : Store.empty.documents.find? (fun d => d.Name == A) = none := by simp [Store.empty]
  obtain ⟨docId, id, doc, hd, hfd, hn, hs⟩ := CreateDraft_ok_new _ _ _ ⟨A, x, 0⟩ hf c1
  have hd' := (nextRowid_eq_some _ _ hd).2
  have hn' := (nextRowid_eq_some _ _ hn).2
  simp [Store.empty] at hd' hn'
  subst hd' hn'
  simp [Store.empty] at hfd
  subst hfd
  simp only [Store.empty, List.nil_append] at hs
  have hf2 : s1.documents.find? (fun d => d.Name == A) = some ⟨1, A, 1, env1.nowDocument⟩ := by
    simp [hs]
  obtain ⟨id2, hn2, hs2⟩ := CreateDraft_ok_found _ _ _ ⟨A, y, 0⟩ _ hf2 c2
  have hn2' := (nextRowid_eq_some _ _ hn2).2
  simp [hs] at hn2'
  subst hn2'
  have hw : wrapInt64 (1 + 1) = 2 := by decide
  simp only [hs, hw, List.map_cons, List.map_nil, List.cons_append, List.nil_append] at hs2
  subst hs2
  simp [getMostRecentDrafts, GetLatestDrafts, countNewerDrafts, orderByVersionNumberDesc]

/-- Witness for C9 amended: name `A`, contents `x` and `y`. -/
theorem getMostRecentDrafts_default_after_two_posts_witness :
    getMostRecentDrafts storeTwoDrafts false "" = .reply 200 (.drafts [⟨2, 1, "y", 2, 21⟩]) :=
  getMostRecentDrafts_default_after_two_posts "A" "x" "y" 0 0 (Env.calm 10 11) (Env.calm 20 21)
    storeOneDraft storeTwoDrafts (.message "Draft added successfully")
    (.message "Draft added successfully") (by decide) (by decide)
/-! ## SearchDrafts -/

theorem asciiLower_upper_toNat (c : Char) (h1 : 65 ≤ c.toNat) (h2 : c.toNat ≤ 90) :
    (asciiLower c).toNat = c.toNat + 32 := by
  have key : ∀ n : Nat, 65 ≤ n → n ≤ 90 → (Char.ofNat (n + 32)).toNat = n + 32 := by
    intro n hn1 hn2
    interval_cases n <;> rfl
  simp only [asciiLower, h1, h2, and_self, if_true]
  exact key _ h1 h2

theorem asciiLower_not_upper (c : Char) (h : ¬ (65 ≤ c.toNat ∧ c.toNat ≤ 90)) :
    asciiLower c = c := by
  simp only [asciiLower, h, if_false]

theorem char_eq_of_toNat_eq (c d : Char) (h : c.toNat = d.toNat) : c = d := by
  rw [← Char.ofNat_toNat c, ← Char.ofNat_toNat d, h]

theorem likeSameChar_iff (c d : Char) :
    likeSameChar c d = true ↔ asciiLower c = asciiLower d := by
  unfold likeSameChar
  simp only [Bool.or_eq_true, Bool.and_eq_true, beq_iff_eq, decide_eq_true_eq]
  constructor
  · rintro (h | ⟨_, h⟩)
    · rw [h]
    · exact h
  · intro h
    by_cases hc : 65 ≤ c.toNat ∧ c.toNat ≤ 90 <;> by_cases hd : 65 ≤ d.toNat ∧ d.toNat ≤ 90
    · exact Or.inr ⟨⟨by omega, by omega⟩, h⟩
    · have e1 := asciiLower_upper_toNat c hc.1 hc.2
      rw [h, asciiLower_not_upper d hd] at e1
      exact Or.inr ⟨⟨by omega, by omega⟩, h⟩
    · have e1 := asciiLower_upper_toNat d hd.1 hd.2
      rw [← h, asciiLower_not_upper c hc] at e1
      exact Or.inr ⟨⟨by omega, by omega⟩, h⟩
    · rw [asciiLower_not_upper c hc, asciiLower_not_upper d hd] at h
      exact Or.inl h

theorem likeSomeSuffix_of_self (f : List Char → Bool) (t : List Char) (h : f t = true) :
    likeSomeSuffix f t = true := by
  cases t with
  | nil => simpa [likeSomeSuffix] using h
  | cons d rest => simp [likeSomeSuffix, h]

theorem likeSomeSuffix_of_suffix (f : List Char → Bool) (pre t : List Char) (h : f t = true) :
    likeSomeSuffix f (pre ++ t) = true := by
  induction pre with
  | nil => exact likeSomeSuffix_of_self f t h
  | cons d rest ih => simp [likeSomeSuffix, ih]

theorem likeSomeSuffix_iff_contains (f : List Char → Bool) (P : List Char) (g : Char → Char)
    (hf : ∀ t, f t = true ↔ P <+: t.map g) (text : List Char) :
    likeSomeSuffix f text = true ↔ P <:+: text.map g := by
  induction text with
  | nil =>
    simp only [likeSomeSuffix, hf, List.map_nil, List.prefix_nil, List.infix_nil]
  | cons d rest ih =>
    simp only [likeSomeSuffix, Bool.or_eq_true, hf, ih, List.map_cons, List.infix_cons_iff]

theorem likeMatch_percent (t : List Char) : likeMatch ['%'] t = true := by
  have h : likeSomeSuffix (likeMatch []) (t ++ []) = true :=
    likeSomeSuffix_of_suffix _ t [] (by simp [likeMatch])
  simpa [likeMatch] using h

theorem likeMatch_plain_iff_starts (q : List Char) (hq : ∀ c ∈ q, c ≠ '%' ∧ c ≠ '_') :
    ∀ t, likeMatch (q ++ ['%']) t = true ↔ q.map asciiLower <+: t.map asciiLower := by
  induction q with
  | nil => intro t; simp [likeMatch_percent]
  | cons c q ih =>
    intro t
    have hc := hq c (List.mem_cons_self _ _)
    have ih' := ih (fun x hx => hq x (List.mem_cons_of_mem _ hx))
    cases t with
    | nil => simp [likeMatch, hc.1]
    | cons d rest =>
      have ih2 := ih' rest
      simp only [List.cons_append, likeMatch, hc.1, if_false, Bool.and_eq_true, Bool.or_eq_true,
        beq_iff_eq, hc.2, false_or, likeSameChar_iff, List.map_cons, List.cons_prefix_cons]
      exact and_congr_right (fun _ => ih2)

theorem likeMatch_self_starts (q rest : List Char) :
    likeMatch (q ++ ['%']) (q ++ rest) = true := by
  induction q with
  | nil => simp [likeMatch_percent]
  | cons c q ih =>
    by_cases hc : c = '%'
    · subst hc
      simp only [List.cons_append, likeMatch, if_true]
      exact likeSomeSuffix_of_suffix _ ['%'] _ ih
    · simp [likeMatch, hc, ih, likeSameChar]

theorem searchQuery_toList (query : String) :
    ("%" ++ query ++ "%").toList = '%' :: (query.toList ++ ['%']) := by
  show ("%" ++ query ++ "%").data = _
  rw [String.data_append, String.data_append]
  rfl

theorem like_of_contains (q text : List Char) (h : q <:+: text) :
    likeMatch ('%' :: (q ++ ['%'])) text = true := by
  obtain ⟨pre, post, rfl⟩ := h
  simp only [likeMatch, if_true]
  rw [List.append_assoc]
  exact likeSomeSuffix_of_suffix _ pre _ (likeMatch_self_starts q post)

theorem like_plain_iff_contains (q text : List Char) (hq : ∀ c ∈ q, c ≠ '%' ∧ c ≠ '_') :
    likeMatch ('%' :: (q ++ ['%'])) text = true ↔ q.map asciiLower <:+: text.map asciiLower := by
  simp only [likeMatch, if_true]
  exact likeSomeSuffix_iff_contains _ _ asciiLower (likeMatch_plain_iff_starts q hq) text

theorem orderByIdDesc_perm (rows : List Draft) : (orderByIdDesc rows).Perm rows :=
  List.perm_insertionSort _ rows

/-- C6, the code at the failing input: for the query `H_l` the draft `Hello` is
returned, although `H_l` is not a substring of `Hello`, with or without regard
to the case of letters: the `_` of the query is taken as a wildcard.  So it is
not the case that a draft is returned exactly when the query is a substring of
its content, whether letters are compared exactly or up to ASCII case. -/
theorem SearchDrafts_returns_non_substring :
    SearchDrafts storeHello false "H_l" = .ok [⟨1, 1, "Hello", 1, 11⟩] ∧
    ¬ ("H_l".toList <:+: "Hello".toList) ∧
    ¬ ("H_l".toList.map asciiLower <:+: "Hello".toList.map asciiLower) ∧
    ¬ (∀ (s : Store) (q : String), q ≠ "" → ∀ d ∈ s.drafts,
        ((∃ rows, SearchDrafts s false q = .ok rows ∧ d ∈ rows) ↔
          q.toList <:+: d.Content.toList)) ∧
    ¬ (∀ (s : Store) (q : String), q ≠ "" → ∀ d ∈ s.drafts,
        ((∃ rows, SearchDrafts s false q = .ok rows ∧ d ∈ rows) ↔
          q.toList.map asciiLower <:+: d.Content.toList.map asciiLower)) := by
  have h1 : SearchDrafts storeHello false "H_l" = .ok [⟨1, 1, "Hello", 1, 11⟩] := by rfl
  have h2 : ¬ ("H_l".toList <:+: "Hello".toList) := by decide
  have h3 : ¬ ("H_l".toList.map asciiLower <:+: "Hello".toList.map asciiLower) := by decide
  refine ⟨h1, h2, h3, fun hall => h2 ?_, fun hall => h3 ?_⟩
  · exact (hall storeHello "H_l" (by decide) ⟨1, 1, "Hello", 1, 11⟩
      (by simp [storeHello])).mp ⟨_, h1, by simp⟩
  · exact (hall storeHello "H_l" (by decide) ⟨1, 1, "Hello", 1, 11⟩
      (by simp [storeHello])).mp ⟨_, h1, by simp⟩

theorem likeChar_of_plain (c : Char) (h1 : c.toNat ≠ 0xFFFE) (h2 : c.toNat ≠ 0xFFFF) :
    likeChar c = c := by
  simp [likeChar, h1, h2]

theorem likeOperand_of_plain (text : List Char) (h : LikePlain text) :
    likeOperand text = text := by
  unfold likeOperand
  have htw : text.takeWhile (fun c => c != Char.ofNat 0) = text := by
    rw [List.takeWhile_eq_self_iff]
    intro c hc
    simpa using (h c hc).1
  rw [htw]
  conv_rhs => rw [← List.map_id text]
  apply List.map_congr_left
  intro c hc
  exact likeChar_of_plain c (h c hc).2.1 (h c hc).2.2

theorem likeOperand_searchQuery (query : String) (h : LikePlain query.toList) :
    likeOperand ("%" ++ query ++ "%").toList = '%' :: (query.toList ++ ['%']) := by
  rw [searchQuery_toList]
  apply likeOperand_of_plain
  intro c hm
  rcases List.mem_cons.mp hm with hm | hm
  · subst hm; decide
  · rcases List.mem_append.mp hm with hm | hm
    · exact h c hm
    · rw [List.mem_singleton.mp hm]; decide

/-- What `SearchDrafts` does apart from wildcards.  For a query `q` whose
pattern is within the engine's length limit, `q` and the contents being texts
that `LIKE` reads as they stand: every stored draft whose content contains `q`
as a substring is returned; the rows returned are stored drafts, each as often
as it is stored; and when `q` has neither `%` nor `_`, a draft is returned if
and only if `q` is a substring of its content once ASCII letters are compared
without regard to case. -/
theorem SearchDrafts_like (s : Store) (q : String) (hq0 : LikePlain q.toList)
    (hlen : ("%" ++ q ++ "%").utf8ByteSize ≤ likePatternLimit) :
    ∃ rows, SearchDrafts s false q = .ok rows ∧
      (∀ d ∈ s.drafts, LikePlain d.Content.toList →
        q.toList <:+: d.Content.toList → d ∈ rows) ∧
      (∀ d ∈ rows, d ∈ s.drafts ∧ rows.count d = s.drafts.count d) ∧
      (s.drafts.Nodup → rows.Nodup) ∧
      ((∀ c ∈ q.toList, c ≠ '%' ∧ c ≠ '_') →
        ∀ d, LikePlain d.Content.toList →
          (d ∈ rows ↔
            d ∈ s.drafts ∧ q.toList.map asciiLower <:+: d.Content.toList.map asciiLower)) := by
  have hnot : ¬ ("%" ++ q ++ "%").utf8ByteSize > likePatternLimit := by omega
  refine ⟨orderByIdDesc (s.drafts.filter (fun d =>
      likeMatch (likeOperand ("%" ++ q ++ "%").toList) (likeOperand d.Content.toList))),
    by simp [SearchDrafts, hnot], ?_, ?_, ?_, ?_⟩
  · intro d hd hd0 hin
    rw [(orderByIdDesc_perm _).mem_iff, List.mem_filter, likeOperand_searchQuery q hq0,
      likeOperand_of_plain _ hd0]
    exact ⟨hd, like_of_contains _ _ hin⟩
  · intro d hd
    rw [(orderByIdDesc_perm _).mem_iff, List.mem_filter] at hd
    refine ⟨hd.1, ?_⟩
    rw [(orderByIdDesc_perm _).count_eq, List.count_filter]
    exact hd.2
  · intro hnd
    exact (orderByIdDesc_perm _).nodup_iff.mpr (hnd.filter _)
  · intro hq d hd0
    rw [(orderByIdDesc_perm _).mem_iff, List.mem_filter, likeOperand_searchQuery q hq0,
      likeOperand_of_plain _ hd0, like_plain_iff_contains _ _ hq]

/-- Example for `SearchDrafts_like`: the query `ELL` finds the draft `Hello`. -/
theorem SearchDrafts_like_example :
    ∃ rows, SearchDrafts storeHello false "ELL" = .ok rows ∧
      ∀ d, LikePlain d.Content.toList →
        (d ∈ rows ↔
          d ∈ storeHello.drafts ∧
            "ELL".toList.map asciiLower <:+: d.Content.toList.map asciiLower) :=
  (SearchDrafts_like storeHello "ELL" (by unfold LikePlain; decide) (by decide)).imp
    (fun _ hr => ⟨hr.1, hr.2.2.2.2 (by decide)⟩)

/-- The engine's reading of U+FFFF: the query U+FFFF returns the draft whose
content is U+FFFD; and over a non-empty table a pattern beyond the length limit
makes the query fail. -/
theorem SearchDrafts_engine_readings :
    SearchDrafts { documents := [], drafts := [⟨1, 1, String.singleton (Char.ofNat 0xFFFD), 1, 0⟩],
                   comments := [], reactions := [] } false (String.singleton (Char.ofNat 0xFFFF))
      = .ok [⟨1, 1, String.singleton (Char.ofNat 0xFFFD), 1, 0⟩] ∧
    (∀ (s : Store) (q : String), s.drafts ≠ [] →
      ("%" ++ q ++ "%").utf8ByteSize > likePatternLimit →
      SearchDrafts s false q = .error (.engine "LIKE or GLOB pattern too complex")) := by
  refine ⟨by rfl, ?_⟩
  intro s q hs hlen
  have hne : s.drafts.isEmpty = false := by
    cases hd : s.drafts with
    | nil => exact absurd hd hs
    | cons a t => rfl
  simp [SearchDrafts, hne, hlen]

/-! ## The comment fold -/

theorem rowReactions_cons (k : Int) (r : JoinedRow) (rest : List JoinedRow) :
    rowReactions k (r :: rest) =
      (if r.commentId = k ∧ r.reactionId.isSome = true then [scannedReaction r] else [])
        ++ rowReactions k rest := by
  unfold rowReactions
  by_cases h : r.commentId = k ∧ r.reactionId.isSome = true
  · simp [List.filter_cons, h]
  · have h' : (r.commentId == k && r.reactionId.isSome) = false := by
      simpa using h
    simp [List.filter_cons, h, h']

theorem firstRows_not_seen (rows : List JoinedRow) :
    ∀ seen : List Int, ∀ x ∈ firstRows seen rows, x.commentId ∉ seen := by
  induction rows with
  | nil => intro seen x hx; simp [firstRows] at hx
  | cons r rest ih =>
    intro seen x hx
    unfold firstRows at hx
    split at hx
    · exact ih seen x hx
    · rename_i hr
      rcases List.mem_cons.mp hx with rfl | hx
      · exact hr
      · intro hmem
        exact ih _ x hx (List.mem_append_left _ hmem)

theorem rowReactions_cons_of_ne (k : Int) (r : JoinedRow) (rest : List JoinedRow)
    (h : r.commentId ≠ k) : rowReactions k (r :: rest) = rowReactions k rest := by
  rw [rowReactions_cons]
  simp [h]

theorem entryOfRow_cons_of_ne (r x : JoinedRow) (rest : List JoinedRow)
    (h : r.commentId ≠ x.commentId) : entryOfRow (r :: rest) x = entryOfRow rest x := by
  unfold entryOfRow
  rw [rowReactions_cons_of_ne _ _ _ h]

theorem sliceExtend_some {α : Type} (l m : List α) :
    sliceExtend (some l) m = some (l ++ m) := by
  cases m <;> simp [sliceExtend, sliceElems]

theorem sliceExtend_sliceExtend {α : Type} (s : Option (List α)) (l m : List α) :
    sliceExtend (sliceExtend s l) m = sliceExtend s (l ++ m) := by
  cases l with
  | nil => simp [sliceExtend]
  | cons x rest =>
    simp only [sliceExtend, List.cons_append]
    cases m <;> simp [sliceExtend, sliceElems]

theorem foldJoinedRow_seen (M : List (Int × CommentWithReactions)) (r : JoinedRow)
    (hmem : r.commentId ∈ M.map (fun e => e.1)) :
    foldJoinedRow M r = M.map (fun e =>
      (e.1, { e.2 with
                Reactions := sliceExtend e.2.Reactions
                  (if r.commentId = e.1 ∧ r.reactionId.isSome = true then [scannedReaction r]
                   else []) })) := by
  have hany : M.any (fun e => e.1 == r.commentId) = true := by
    simpa using hmem
  unfold foldJoinedRow
  rw [if_pos hany]
  by_cases hs : r.reactionId.isSome = true
  · rw [if_pos hs]
    apply List.map_congr_left
    intro e _
    by_cases he : e.1 = r.commentId
    · simp [he, hs, sliceExtend, sliceAppend]
    · have he' : ¬ r.commentId = e.1 := fun h => he h.symm
      simp [he, he', sliceExtend]
  · rw [if_neg hs]
    conv_lhs => rw [← List.map_id M]
    apply List.map_congr_left
    intro e _
    simp [hs, sliceExtend]

theorem foldJoinedRow_new (M : List (Int × CommentWithReactions)) (r : JoinedRow)
    (hmem : r.commentId ∉ M.map (fun e => e.1)) :
    foldJoinedRow M r = M ++ [(r.commentId,
      { Id := r.commentId, UserId := r.userId, Text := r.text,
        ParentCommentId := r.parentCommentId, CreatedAt := r.createdAt,
        Reactions := some (if r.reactionId.isSome then [scannedReaction r] else []) })] := by
  have hany : ¬ M.any (fun e => e.1 == r.commentId) = true := by
    simpa using hmem
  unfold foldJoinedRow
  rw [if_neg hany]
  by_cases hs : r.reactionId.isSome = true <;> simp [hs, sliceAppend, sliceElems]

theorem foldl_foldJoinedRow (rows : List JoinedRow) :
    ∀ M : List (Int × CommentWithReactions),
      rows.foldl foldJoinedRow M =
        M.map (fun e =>
            (e.1, { e.2 with Reactions := sliceExtend e.2.Reactions (rowReactions e.1 rows) }))
          ++ (firstRows (M.map (fun e => e.1)) rows).map
              (fun r => (r.commentId, entryOfRow rows r)) := by
  induction rows with
  | nil =>
    intro M
    simp [firstRows, rowReactions, sliceExtend]
  | cons r rest ih =>
    intro M
    rw [List.foldl_cons, ih]
    by_cases hmem : r.commentId ∈ M.map (fun e => e.1)
    · rw [foldJoinedRow_seen M r hmem]
      congr 1
      · rw [List.map_map]
        apply List.map_congr_left
        intro e _
        simp only [Function.comp, rowReactions_cons, sliceExtend_sliceExtend]
      · rw [List.map_map]
        have hk : (List.map ((fun e : Int × CommentWithReactions => e.1) ∘ fun e =>
            (e.1, { e.2 with
                      Reactions := sliceExtend e.2.Reactions
                        (if r.commentId = e.1 ∧ r.reactionId.isSome = true then
                          [scannedReaction r] else []) })) M) = M.map (fun e => e.1) := by
          apply List.map_congr_left
          intro e _
          rfl
        rw [hk]
        have hfr : firstRows (M.map (fun e => e.1)) (r :: rest)
            = firstRows (M.map (fun e => e.1)) rest := by
          simp only [firstRows, hmem, if_true]
        rw [hfr]
        apply List.map_congr_left
        intro x hx
        have hne : r.commentId ≠ x.commentId := by
          intro heq
          exact firstRows_not_seen rest _ x hx (heq ▸ hmem)
        rw [entryOfRow_cons_of_ne r x rest hne]
    · rw [foldJoinedRow_new M r hmem]
      have hfr : firstRows (M.map (fun e => e.1)) (r :: rest)
          = r :: firstRows (M.map (fun e => e.1) ++ [r.commentId]) rest := by
        simp only [firstRows, hmem, if_false]
      rw [hfr, List.map_append, List.map_append, List.map_cons, List.map_nil, List.map_cons,
        List.map_cons, List.map_nil, List.append_assoc, List.singleton_append]
      congr 1
      · apply List.map_congr_left
        intro e he
        have hne : r.commentId ≠ e.1 := by
          intro heq
          exact hmem (heq ▸ List.mem_map_of_mem (fun e => e.1) he)
        rw [rowReactions_cons_of_ne _ _ _ hne]
      · congr 1
        · simp only [entryOfRow, rowReactions_cons, true_and, sliceExtend_some]
        · apply List.map_congr_left
          intro x hx
          have hne : r.commentId ≠ x.commentId := by
            intro heq
            exact firstRows_not_seen rest _ x hx (by simp [heq])
          rw [entryOfRow_cons_of_ne r x rest hne]

theorem foldJoinedRows_eq (rows : List JoinedRow) :
    foldJoinedRows rows = (firstRows [] rows).map (fun r => (r.commentId, entryOfRow rows r)) := by
  unfold foldJoinedRows
  rw [foldl_foldJoinedRow]
  simp

theorem firstRows_subset (rows : List JoinedRow) :
    ∀ seen : List Int, ∀ x ∈ firstRows seen rows, x ∈ rows := by
  induction rows with
  | nil => intro seen x hx; simp [firstRows] at hx
  | cons r rest ih =>
    intro seen x hx
    unfold firstRows at hx
    split at hx
    · exact List.mem_cons_of_mem _ (ih seen x hx)
    · rcases List.mem_cons.mp hx with rfl | hx
      · exact List.mem_cons_self _ _
      · exact List.mem_cons_of_mem _ (ih _ x hx)

theorem firstRows_keys_nodup (rows : List JoinedRow) :
    ∀ seen : List Int, ((firstRows seen rows).map (fun r => r.commentId)).Nodup := by
  induction rows with
  | nil => intro seen; simp [firstRows]
  | cons r rest ih =>
    intro seen
    unfold firstRows
    split
    · exact ih seen
    · rw [List.map_cons, List.nodup_cons]
      refine ⟨?_, ih _⟩
      intro hmem
      obtain ⟨x, hx, hxe⟩ := List.mem_map.mp hmem
      exact firstRows_not_seen rest _ x hx (by simp [hxe])

theorem firstRows_keys_mem (rows : List JoinedRow) :
    ∀ (seen : List Int) (k : Int),
      k ∈ (firstRows seen rows).map (fun r => r.commentId) ↔
        k ∉ seen ∧ k ∈ rows.map (fun r => r.commentId) := by
  induction rows with
  | nil => intro seen k; simp [firstRows]
  | cons r rest ih =>
    intro seen k
    unfold firstRows
    split
    · rename_i hr
      rw [ih seen k, List.map_cons, List.mem_cons]
      constructor
      · rintro ⟨h1, h2⟩; exact ⟨h1, Or.inr h2⟩
      · rintro ⟨h1, h2 | h2⟩
        · exact absurd (h2 ▸ hr) h1
        · exact ⟨h1, h2⟩
    · rename_i hr
      rw [List.map_cons, List.mem_cons, ih (seen ++ [r.commentId]) k, List.map_cons, List.mem_cons,
        List.mem_append, List.mem_singleton]
      constructor
      · rintro (h | ⟨h1, h2⟩)
        · exact ⟨h ▸ hr, Or.inl h⟩
        · exact ⟨fun hs => h1 (Or.inl hs), Or.inr h2⟩
      · rintro ⟨h1, h2 | h2⟩
        · exact Or.inl h2
        · by_cases hk : k = r.commentId
          · exact Or.inl hk
          · exact Or.inr ⟨fun hs => hs.elim h1 hk, h2⟩

theorem rowReactions_append (k : Int) (l1 l2 : List JoinedRow) :
    rowReactions k (l1 ++ l2) = rowReactions k l1 ++ rowReactions k l2 := by
  simp [rowReactions]

theorem rowReactions_perm (k : Int) (l1 l2 : List JoinedRow) (h : l1.Perm l2) :
    (rowReactions k l1).Perm (rowReactions k l2) :=
  (h.filter _).map _

theorem joinedRowsOf_fields (reactions : List ReactionRow) (c : Comment) :
    ∀ x ∈ joinedRowsOf reactions c, x.commentId = c.Id ∧ x.userId = c.UserId ∧
      x.text = c.Text ∧ x.parentCommentId = c.ParentCommentId ∧ x.createdAt = c.CreatedAt := by
  intro x hx
  unfold joinedRowsOf at hx
  split at hx
  · simp at hx
    subst hx
    simp
  · obtain ⟨r, _, rfl⟩ := List.mem_map.mp hx
    simp

theorem joinedRowsOf_ne_nil (reactions : List ReactionRow) (c : Comment) :
    joinedRowsOf reactions c ≠ [] := by
  unfold joinedRowsOf
  split <;> simp

theorem rowReactions_joinedRowsOf (reactions : List ReactionRow) (c : Comment) (k : Int) :
    rowReactions k (joinedRowsOf reactions c) =
      if c.Id = k then (reactions.filter (fun r => k == r.CommentId)).map reactionOf else [] := by
  unfold joinedRowsOf
  by_cases hk : c.Id = k
  · subst hk
    simp only [if_true]
    split
    · rename_i hnil
      simp [rowReactions, hnil]
    · rename_i r rs hcons
      rw [← hcons]
      simp [rowReactions, List.filter_map, Function.comp_def, scannedReaction, reactionOf]
  · simp only [hk, if_false]
    split
    · simp [rowReactions, hk]
    · simp [rowReactions, List.filter_map, Function.comp_def, hk]

theorem rowReactions_flatMap (reactions : List ReactionRow) (k : Int) (cs : List Comment)
    (hnd : (cs.map (fun c => c.Id)).Nodup) (hk : k ∈ cs.map (fun c => c.Id)) :
    rowReactions k (cs.flatMap (joinedRowsOf reactions)) =
      (reactions.filter (fun r => k == r.CommentId)).map reactionOf := by
  induction cs with
  | nil => simp at hk
  | cons c cs ih =>
    rw [List.map_cons, List.nodup_cons] at hnd
    rw [List.flatMap_cons, rowReactions_append, rowReactions_joinedRowsOf]
    by_cases hc : c.Id = k
    · have hrest : rowReactions k (cs.flatMap (joinedRowsOf reactions)) = [] := by
        have : ∀ cs' : List Comment, k ∉ cs'.map (fun c => c.Id) →
            rowReactions k (cs'.flatMap (joinedRowsOf reactions)) = [] := by
          intro cs' hk'
          induction cs' with
          | nil => simp [rowReactions]
          | cons c' cs' ih' =>
            rw [List.map_cons, List.mem_cons, not_or] at hk'
            rw [List.flatMap_cons, rowReactions_append, rowReactions_joinedRowsOf, ih' hk'.2]
            simp [Ne.symm hk'.1]
        exact this cs (hc ▸ hnd.1)
      simp [hc, hrest]
    · have hk' : k ∈ cs.map (fun c => c.Id) := by
        rcases List.mem_cons.mp hk with h | h
        · exact absurd h.symm hc
        · exact h
      simp [hc, ih hnd.2 hk']
theorem reactions_partition (reactions : List ReactionRow) (ids : List Int) (hnd : ids.Nodup) :
    (ids.flatMap (fun k => (reactions.filter (fun r => k == r.CommentId)).map reactionOf)).Perm
      ((reactions.filter (fun r => decide (r.CommentId ∈ ids))).map reactionOf) := by
  induction ids with
  | nil => simp
  | cons k ks ih =>
    rw [List.nodup_cons] at hnd
    rw [List.flatMap_cons]
    have h1 : (reactions.filter (fun r => k == r.CommentId)) =
        (reactions.filter (fun r => decide (r.CommentId ∈ k :: ks))).filter
          (fun r => k == r.CommentId) := by
      rw [List.filter_filter]
      apply List.filter_congr
      intro r _
      by_cases hr : k = r.CommentId <;> simp [hr]
    have h2 : (reactions.filter (fun r => decide (r.CommentId ∈ ks))) =
        (reactions.filter (fun r => decide (r.CommentId ∈ k :: ks))).filter
          (fun r => !(k == r.CommentId)) := by
      rw [List.filter_filter]
      apply List.filter_congr
      intro r _
      by_cases hr : k = r.CommentId
      · subst hr
        simp [hnd.1]
      · have hr' : ¬ r.CommentId = k := fun h => hr h.symm
        simp [hr, hr']
    refine (List.Perm.append_left _ (ih hnd.2)).trans ?_
    rw [← List.map_append]
    apply List.Perm.map
    rw [h1, h2]
    exact List.filter_append_perm _ _

theorem orderByCreatedAtDesc_perm (rows : List JoinedRow) :
    (orderByCreatedAtDesc rows).Perm rows :=
  List.perm_insertionSort _ rows

theorem mem_commentsJoinReactions (s : Store) (draftId : Int) (x : JoinedRow) :
    x ∈ commentsJoinReactions s draftId ↔
      ∃ c ∈ commentsOf s draftId, x ∈ joinedRowsOf s.reactions c := by
  unfold commentsJoinReactions commentsOf
  rw [(orderByCreatedAtDesc_perm _).mem_iff, List.mem_flatMap]

theorem commentsJoinReactions_keys (s : Store) (draftId : Int) (k : Int) :
    k ∈ (commentsJoinReactions s draftId).map (fun r => r.commentId) ↔
      k ∈ (commentsOf s draftId).map (fun c => c.Id) := by
  simp only [List.mem_map, mem_commentsJoinReactions]
  constructor
  · rintro ⟨x, ⟨c, hc, hx⟩, rfl⟩
    exact ⟨c, hc, ((joinedRowsOf_fields _ c x hx).1).symm⟩
  · rintro ⟨c, hc, rfl⟩
    obtain ⟨x, hx⟩ := List.exists_mem_of_ne_nil _ (joinedRowsOf_ne_nil s.reactions c)
    exact ⟨x, ⟨c, hc, hx⟩, (joinedRowsOf_fields _ c x hx).1⟩

theorem commentsOf_keys_nodup (s : Store) (draftId : Int)
    (hkeys : (s.comments.map (fun c => c.Id)).Nodup) :
    ((commentsOf s draftId).map (fun c => c.Id)).Nodup :=
  List.Nodup.sublist ((List.filter_sublist _).map _) hkeys

theorem rowReactions_commentsJoinReactions (s : Store) (draftId : Int) (k : Int)
    (hkeys : (s.comments.map (fun c => c.Id)).Nodup)
    (hk : k ∈ (commentsOf s draftId).map (fun c => c.Id)) :
    (rowReactions k (commentsJoinReactions s draftId)).Perm (reactionsOfComment s k) := by
  have hp := rowReactions_perm k _ _
    (orderByCreatedAtDesc_perm ((s.comments.filter (fun c => c.DraftId == draftId)).flatMap
      (joinedRowsOf s.reactions)))
  have he := rowReactions_flatMap s.reactions k (commentsOf s draftId)
    (commentsOf_keys_nodup s draftId hkeys) hk
  unfold commentsOf at he
  unfold commentsJoinReactions reactionsOfComment
  rw [← he]
  exact hp

/-- C10: `GetCommentsAndReactionsByDraftId d` returns, in whatever order the
map is ranged over, one entry per comment of draft `d`: the entry ids are the
ids of those comments, none twice; each entry carries the fields of its comment
and exactly the stored reactions of that comment; and all the reactions
returned together are exactly the stored reactions whose comment is on `d`. -/
theorem GetCommentsAndReactionsByDraftId_spec (s : Store) (draftId : Int)
    (hkeys : (s.comments.map (fun c => c.Id)).Nodup) :
    ∃ entries, GetCommentsAndReactionsByDraftId s false draftId = .ok entries ∧
      ∀ result : List CommentWithReactions, result.Perm entries →
        (result.map (fun e => e.Id)).Perm ((commentsOf s draftId).map (fun c => c.Id)) ∧
        (result.map (fun e => e.Id)).Nodup ∧
        (∀ e ∈ result, ∃ c ∈ s.comments, c.DraftId = draftId ∧ c.Id = e.Id ∧
          e.UserId = c.UserId ∧ e.Text = c.Text ∧ e.ParentCommentId = c.ParentCommentId ∧
          e.CreatedAt = c.CreatedAt ∧
          (sliceElems e.Reactions).Perm (reactionsOfComment s c.Id)) ∧
        (result.flatMap (fun e => sliceElems e.Reactions)).Perm
          ((s.reactions.filter (fun r =>
              (commentsOf s draftId).any (fun c => c.Id == r.CommentId))).map reactionOf) := by
  refine ⟨(firstRows [] (commentsJoinReactions s draftId)).map
      (entryOfRow (commentsJoinReactions s draftId)), ?_, ?_⟩
  · simp [GetCommentsAndReactionsByDraftId, foldJoinedRows_eq, Function.comp_def]
  intro result hres
  have hids : ((firstRows [] (commentsJoinReactions s draftId)).map
      (entryOfRow (commentsJoinReactions s draftId))).map (fun e => e.Id)
      = (firstRows [] (commentsJoinReactions s draftId)).map (fun r => r.commentId) := by
    rw [List.map_map]; rfl
  have hnd1 := firstRows_keys_nodup (commentsJoinReactions s draftId) []
  have hnd2 := commentsOf_keys_nodup s draftId hkeys
  have hkperm : ((firstRows [] (commentsJoinReactions s draftId)).map (fun r => r.commentId)).Perm
      ((commentsOf s draftId).map (fun c => c.Id)) := by
    rw [List.perm_ext_iff_of_nodup hnd1 hnd2]
    intro k
    rw [firstRows_keys_mem, commentsJoinReactions_keys]
    simp
  have hentry : ∀ x ∈ firstRows [] (commentsJoinReactions s draftId),
      ∃ c ∈ s.comments, c.DraftId = draftId ∧ c.Id = x.commentId ∧ x.userId = c.UserId ∧
        x.text = c.Text ∧ x.parentCommentId = c.ParentCommentId ∧ x.createdAt = c.CreatedAt ∧
        (rowReactions x.commentId (commentsJoinReactions s draftId)).Perm
          (reactionsOfComment s c.Id) := by
    intro x hx
    have hx' := firstRows_subset _ _ x hx
    obtain ⟨c, hc, hxc⟩ := (mem_commentsJoinReactions s draftId x).mp hx'
    obtain ⟨f1, f2, f3, f4, f5⟩ := joinedRowsOf_fields _ c x hxc
    have hc' := List.mem_filter.mp hc
    refine ⟨c, hc'.1, by simpa using hc'.2, f1.symm, f2, f3, f4, f5, ?_⟩
    rw [f1]
    exact rowReactions_commentsJoinReactions s draftId c.Id hkeys
      (List.mem_map_of_mem (fun c => c.Id) hc)
  refine ⟨?_, ?_, ?_, ?_⟩
  · exact ((hres.map _).trans (hids ▸ List.Perm.refl _)).trans hkperm
  · exact (hres.map _).nodup_iff.mpr (hids ▸ hnd1)
  · intro e he
    obtain ⟨x, hx, rfl⟩ := List.mem_map.mp (hres.mem_iff.mp he)
    exact hentry x hx
  · refine (hres.flatMap_right _).trans ?_
    rw [List.flatMap_map]
    have hstep1 : ((firstRows [] (commentsJoinReactions s draftId)).flatMap
        (fun a => sliceElems (entryOfRow (commentsJoinReactions s draftId) a).Reactions)).Perm
        ((firstRows [] (commentsJoinReactions s draftId)).flatMap
          (fun a => reactionsOfComment s a.commentId)) := by
      apply List.Perm.flatMap_left
      intro x hx
      obtain ⟨c, _, _, hid, _, _, _, _, hp⟩ := hentry x hx
      rw [hid] at hp
      exact hp
    refine hstep1.trans ?_
    rw [← List.flatMap_map (fun r : JoinedRow => r.commentId) (reactionsOfComment s)]
    refine (hkperm.flatMap_right _).trans ?_
    refine (reactions_partition s.reactions _ hnd2).trans ?_
    apply List.Perm.of_eq
    congr 1
    apply List.filter_congr
    intro r _
    rw [Bool.eq_iff_iff]
    simp

/-- Witness for C10: two comments on draft 1, one on draft 2, three reactions. -/
theorem GetCommentsAndReactionsByDraftId_spec_witness :
    (storeComments.comments.map (fun c => c.Id)).Nodup ∧
    ∃ entries, GetCommentsAndReactionsByDraftId storeComments false 1 = .ok entries ∧
      (entries.map (fun e => e.Id)).Perm [1, 2] :=
  ⟨by decide, (GetCommentsAndReactionsByDraftId_spec storeComments 1 (by decide)).imp
    (fun entries hr => ⟨hr.1, (hr.2 entries (List.Perm.refl _)).1⟩)⟩
/-! ## The version invariant along successful calls -/

theorem firstIds_succ (n : Nat) : firstIds (n + 1) = firstIds n ++ [((n : Int) + 1)] := by
  unfold firstIds
  rw [List.range'_concat]
  simp
  omega

theorem foldl_max_firstIds (n : Nat) : (firstIds n).foldl max 0 = (n : Int) := by
  induction n with
  | zero => simp [firstIds]
  | succ n ih =>
    rw [firstIds_succ, foldl_max_concat, ih]
    push_cast
    omega

theorem mem_firstIds (n : Nat) (i : Int) : i ∈ firstIds n ↔ 1 ≤ i ∧ i ≤ (n : Int) := by
  unfold firstIds
  simp only [List.mem_map, List.mem_range'_1]
  constructor
  · rintro ⟨k, hk, rfl⟩
    omega
  · rintro ⟨h1, h2⟩
    refine ⟨i.toNat, ?_, ?_⟩ <;> omega

theorem firstIds_nodup (n : Nat) : (firstIds n).Nodup := by
  unfold firstIds
  exact (List.nodup_range' 1 n).map (fun a b h => by exact_mod_cast h)

theorem nextRowid_firstIds (ids : List Int) (n : Nat) (id : Int) (h : ids = firstIds n)
    (hn : nextRowid ids = some id) : (n : Int) < maxInt64 ∧ id = (n : Int) + 1 := by
  have := nextRowid_eq_some ids id hn
  rw [h, foldl_max_firstIds] at this
  exact this
theorem draftsOf_append (s : Store) (D : Document) (nd : Draft) (docs : List Document) :
    draftsOf { documents := docs, drafts := s.drafts ++ [nd], comments := s.comments,
               reactions := s.reactions } D
      = draftsOf s D ++ (if nd.DocumentId = D.Id then [nd] else []) := by
  unfold draftsOf
  by_cases h : nd.DocumentId = D.Id <;> simp [List.filter_append, h]

theorem draftsOf_length_le (s : Store) (D : Document) :
    (draftsOf s D).length ≤ s.drafts.length :=
  List.length_filter_le _ _

theorem DraftStoreInvariant_empty : DraftStoreInvariant Store.empty := by
  simp [DraftStoreInvariant, Store.empty, firstIds]

theorem DraftStoreInvariant_found (s s' : Store) (env : Env) (draft : common.Draft)
    (found : Document) (hinv : DraftStoreInvariant s)
    (hf : s.documents.find? (fun d => d.Name == draft.Name) = some found)
    (h : CreateDraft s env draft = (s', none)) : DraftStoreInvariant s' := by
  obtain ⟨hdocIds, hdraftIds, hnames, href, hver⟩ := hinv
  obtain ⟨id, hn, hs⟩ := CreateDraft_ok_found s s' env draft found hf h
  obtain ⟨hlt, hid⟩ := nextRowid_firstIds _ _ _ hdraftIds hn
  have hfmem : found ∈ s.documents := List.mem_of_find?_eq_some hf
  have hfver := hver found hfmem
  have hcount := draftsOf_length_le s found
  have hw : wrapInt64 (found.LatestVersion + 1) = found.LatestVersion + 1 := by
    have h1 := hfver.1
    unfold maxInt64 at hlt
    apply wrapInt64_of_inRange
    · unfold minInt64; omega
    · unfold maxInt64; omega
  rw [hw] at hs
  have hidsNodup : (s.documents.map (fun d => d.Id)).Nodup := hdocIds ▸ firstIds_nodup _
  subst hs
  subst hid
  refine ⟨?_, ?_, ?_, ?_, ?_⟩
  · simp only [List.map_map, List.length_map]
    rw [← hdocIds]
    apply List.map_congr_left
    intro D _
    by_cases hD : D.Name = found.Name <;> simp [hD]
  · simp only [List.map_append, List.map_cons, List.map_nil, List.length_append,
      List.length_singleton, firstIds_succ, hdraftIds]
  · have : (s.documents.map (fun d =>
        if d.Name == found.Name then
          ({ d with LatestVersion := found.LatestVersion + 1 } : Document) else d)).map
        (fun d => d.Name) = s.documents.map (fun d => d.Name) := by
      rw [List.map_map]
      apply List.map_congr_left
      intro D _
      by_cases hD : D.Name = found.Name <;> simp [hD]
    simp only
    rw [this]
    exact hnames
  · intro d hd
    simp only [List.mem_append, List.mem_singleton] at hd
    have key : ∀ D ∈ s.documents, ∃ D' ∈ s.documents.map (fun d =>
        if d.Name == found.Name then
          ({ d with LatestVersion := found.LatestVersion + 1 } : Document) else d),
        D'.Id = D.Id := by
      intro D hD
      refine ⟨_, List.mem_map_of_mem _ hD, ?_⟩
      by_cases hDn : D.Name = found.Name <;> simp [hDn]
    rcases hd with hd | hd
    · obtain ⟨D, hD, hDid⟩ := href d hd
      obtain ⟨D', hD', hD'id⟩ := key D hD
      exact ⟨D', hD', hD'id.trans hDid⟩
    · obtain ⟨D', hD', hD'id⟩ := key found hfmem
      exact ⟨D', hD', by rw [hD'id, hd]⟩
  · intro D' hD'
    obtain ⟨D, hD, rfl⟩ := List.mem_map.mp hD'
    by_cases hDn : D.Name = found.Name
    · have hDf : D = found := List.inj_on_of_nodup_map hnames hD hfmem hDn
      subst hDf
      simp only [beq_self_eq_true, if_true]
      unfold VersionInvariant
      rw [draftsOf_append]
      simp only [if_true, List.length_append, List.length_singleton]
      obtain ⟨h1, -, h3⟩ := hfver
      have hdo : draftsOf s { D with LatestVersion := D.LatestVersion + 1 } = draftsOf s D := rfl
      rw [hdo]
      refine ⟨?_, ⟨_, List.mem_append_right _ (List.mem_singleton_self _), rfl⟩, ?_⟩
      · push_cast
        rw [← h1]
      · intro d hd
        rcases List.mem_append.mp hd with hd | hd
        · have := h3 d hd
          show d.VersionNumber ≤ D.LatestVersion + 1
          omega
        · rw [List.mem_singleton.mp hd]
    · have hne : ¬ found.Id = D.Id := by
        intro heq
        exact hDn (congrArg (fun d => d.Name)
          (List.inj_on_of_nodup_map hidsNodup hD hfmem heq.symm))
      simp only [beq_iff_eq, hDn, if_false]
      unfold VersionInvariant
      rw [draftsOf_append]
      simp only [hne, if_false, List.append_nil]
      exact hver D hD
theorem DraftStoreInvariant_new (s s' : Store) (env : Env) (draft : common.Draft)
    (hinv : DraftStoreInvariant s)
    (hf : s.documents.find? (fun d => d.Name == draft.Name) = none)
    (h : CreateDraft s env draft = (s', none)) : DraftStoreInvariant s' := by
  obtain ⟨hdocIds, hdraftIds, hnames, href, hver⟩ := hinv
  obtain ⟨docId, id, doc, hd, hfd, hn, hs⟩ := CreateDraft_ok_new s s' env draft hf h
  obtain ⟨-, hdocId⟩ := nextRowid_firstIds _ _ _ hdocIds hd
  obtain ⟨-, hid⟩ := nextRowid_firstIds _ _ _ hdraftIds hn
  have hfresh : ∀ D ∈ s.documents, D.Id ≠ docId := by
    intro D hD heq
    have hmem : D.Id ∈ firstIds s.documents.length :=
      hdocIds ▸ List.mem_map_of_mem (fun d => d.Id) hD
    rw [mem_firstIds] at hmem
    omega
  have hdoc : doc = ⟨docId, draft.Name, 1, env.nowDocument⟩ := by
    rw [List.find?_append] at hfd
    have hnone : s.documents.find? (fun d => d.Id == docId) = none := by
      rw [List.find?_eq_none]
      intro D hD
      simpa using hfresh D hD
    rw [hnone] at hfd
    simp at hfd
    exact hfd.symm
  subst hdoc
  subst hs
  have hname : ∀ D ∈ s.documents, D.Name ≠ draft.Name := by
    intro D hD
    have := List.find?_eq_none.mp hf D hD
    simpa using this
  refine ⟨?_, ?_, ?_, ?_, ?_⟩
  · simp only [List.map_append, List.map_cons, List.map_nil, List.length_append,
      List.length_singleton, firstIds_succ, hdocIds, hdocId]
  · simp only [List.map_append, List.map_cons, List.map_nil, List.length_append,
      List.length_singleton, firstIds_succ, hdraftIds, hid]
  · simp only [List.map_append, List.map_cons, List.map_nil]
    rw [List.nodup_append]
    refine ⟨hnames, List.nodup_singleton _, ?_⟩
    intro a ha hb
    obtain ⟨D, hD, rfl⟩ := List.mem_map.mp ha
    exact hname D hD (List.mem_singleton.mp hb)
  · intro d hdm
    simp only [List.mem_append, List.mem_singleton] at hdm
    rcases hdm with hdm | hdm
    · obtain ⟨D, hD, hDid⟩ := href d hdm
      exact ⟨D, List.mem_append_left _ hD, hDid⟩
    · exact ⟨_, List.mem_append_right _ (List.mem_singleton_self _), by rw [hdm]⟩
  · intro D hD
    simp only [List.mem_append, List.mem_singleton] at hD
    unfold VersionInvariant
    rw [draftsOf_append]
    rcases hD with hD | hD
    · have hne : ¬ docId = D.Id := fun heq => hfresh D hD heq.symm
      simp only [hne, if_false, List.append_nil]
      exact hver D hD
    · subst hD
      have hempty : draftsOf s ⟨docId, draft.Name, 1, env.nowDocument⟩ = [] := by
        unfold draftsOf
        rw [List.filter_eq_nil_iff]
        intro d hdm
        obtain ⟨D, hD, hDid⟩ := href d hdm
        have := hfresh D hD
        simp only [beq_iff_eq]
        intro heq
        exact this (hDid.trans heq)
      simp [hempty]

/-- In every store state that `CreateDraft` calls returning `nil` lead to from
the empty store, every document satisfies the version invariant. -/
theorem DraftStoreInvariant_of_reachableOk (s : Store) (h : ReachableOk s) :
    DraftStoreInvariant s := by
  induction h with
  | empty => exact DraftStoreInvariant_empty
  | @step s0 s1 env draft _ hstep ih =>
    cases hf : s0.documents.find? (fun d => d.Name == draft.Name) with
    | none => exact DraftStoreInvariant_new s0 s1 env draft ih hf hstep
    | some found => exact DraftStoreInvariant_found s0 s1 env draft found ih hf hstep

theorem VersionInvariant_of_reachableOk (s : Store) (h : ReachableOk s) :
    ∀ D ∈ s.documents, VersionInvariant s D :=
  (DraftStoreInvariant_of_reachableOk s h).2.2.2.2
/-! ## GetLatestDrafts with limit 0 -/

/-- C14: `GetLatestDrafts 0` returns every stored draft, each as often as it is
stored (once, rows being distinct), sorted by version number in non-increasing
order. -/
theorem GetLatestDrafts_zero (s : Store) :
    ∃ rows, GetLatestDrafts s false 0 = .ok rows ∧ rows.Perm s.drafts ∧
      (∀ d, rows.count d = s.drafts.count d) ∧
      (s.drafts.Nodup → rows.Nodup) ∧
      rows.Sorted (fun a b => a.VersionNumber ≥ b.VersionNumber) := by
  refine ⟨orderByVersionNumberDesc s.drafts, by simp [GetLatestDrafts],
    orderByVersionNumberDesc_perm _, fun d => (orderByVersionNumberDesc_perm _).count_eq d,
    fun hnd => (orderByVersionNumberDesc_perm _).nodup_iff.mpr hnd,
    orderByVersionNumberDesc_sorted _⟩

/-- Witness for C14: the store with drafts `x` and `y` of one document. -/
theorem GetLatestDrafts_zero_witness :
    storeTwoDrafts.drafts.Nodup ∧
    ∃ rows, GetLatestDrafts storeTwoDrafts false 0 = .ok rows ∧ rows.Nodup ∧
      rows.Perm storeTwoDrafts.drafts :=
  ⟨by decide, (GetLatestDrafts_zero storeTwoDrafts).imp
    (fun _ hr => ⟨hr.1, hr.2.2.2.1 (by decide), hr.2.1⟩)⟩

/-! ## The reaction endpoint -/

theorem AddReactionToComment_reactions (s : Store) (refused : Bool) (now : Time)
    (reaction : common.Reaction) :
    (AddReactionToComment s refused now reaction).1 = s ∨
    ∃ id, (AddReactionToComment s refused now reaction).1 =
      { s with reactions := s.reactions ++
          [⟨id, reaction.Id, reaction.UserId, reaction.Emoji, now⟩] } := by
  unfold AddReactionToComment
  cases refused
  · cases hn : nextRowid (s.reactions.map (fun r => r.Id)) with
    | none => left; simp
    | some id => right; exact ⟨id, by simp⟩
  · left; simp

/-- C11: a request to the reaction endpoint with an integer comment id and a
decodable body whose emoji the validator rejects is answered 400 with the
message `Invalid emoji`, whatever the engine would do, and leaves the store as
it was; and whatever the request, the endpoint leaves the store as it was or
adds one reaction row, for the comment id of the path, whose emoji consists
of permitted code points only. -/
theorem addReaction_rejects_invalid_emoji (s : Store) (refused : Bool) (now : Time) :
    (∀ (str : String) (commentId : Int) (newReaction : common.Reaction),
      Atoi str = some commentId → isOnlySupportedEmojis newReaction.Emoji = false →
      addReaction s refused now (some str) (.ok newReaction)
        = (s, .reply 400 (.text "Invalid emoji"))) ∧
    (∀ (commentIdStr : Option String) (body : Except String common.Reaction),
      (addReaction s refused now commentIdStr body).1 = s ∨
      ∃ row : ReactionRow,
        (addReaction s refused now commentIdStr body).1
          = { s with reactions := s.reactions ++ [row] } ∧
        IsPermittedEmojiString row.Emoji ∧
        (∃ str, commentIdStr = some str ∧ Atoi str = some row.CommentId)) := by
  constructor
  · intro str commentId newReaction hid hbad
    simp [addReaction, hid, hbad]
  · intro commentIdStr body
    cases commentIdStr with
    | none => left; simp [addReaction]
    | some str =>
      cases hid : Atoi str with
      | none => left; simp [addReaction, hid]
      | some commentId =>
        cases body with
        | error e => left; simp [addReaction, hid]
        | ok newReaction =>
          cases hv : isOnlySupportedEmojis newReaction.Emoji with
          | false => left; simp [addReaction, hid, hv]
          | true =>
            have hperm : IsPermittedEmojiString newReaction.Emoji :=
              (isOnlySupportedEmojisLoop_iff _).mp hv
            have hstore : (addReaction s refused now (some str) (.ok newReaction)).1
                = (AddReactionToComment s refused now
                    ⟨commentId, newReaction.UserId, newReaction.Emoji, 0⟩).1 := by
              simp only [addReaction, hid, hv, Bool.not_true, Bool.false_eq_true, if_false]
              generalize AddReactionToComment s refused now
                ⟨commentId, newReaction.UserId, newReaction.Emoji, 0⟩ = r
              obtain ⟨s1, e⟩ := r
              cases e <;> rfl
            rw [hstore]
            rcases AddReactionToComment_reactions s refused now
              ⟨commentId, newReaction.UserId, newReaction.Emoji, 0⟩ with h | ⟨id, h⟩
            · left; exact h
            · right
              exact ⟨_, h, hperm, str, rfl, hid⟩

/-- Witness for C11: the letter `A` as emoji for comment 1 on `storeComments`. -/
theorem addReaction_rejects_invalid_emoji_witness :
    Atoi "1" = some 1 ∧ isOnlySupportedEmojis "A" = false ∧
    addReaction storeComments false 50 (some "1") (.ok ⟨0, 1, "A", 0⟩)
      = (storeComments, .reply 400 (.text "Invalid emoji")) :=
  ⟨by decide, by decide,
   (addReaction_rejects_invalid_emoji storeComments false 50).1 "1" 1 ⟨0, 1, "A", 0⟩
     (by decide) (by decide)⟩
/-! ## A created draft is among the latest drafts -/

theorem le_foldl_max (ids : List Int) : ∀ (b : Int), b ≤ ids.foldl max b ∧
    ∀ x ∈ ids, x ≤ ids.foldl max b := by
  induction ids with
  | nil => intro b; simp
  | cons a t ih =>
    intro b
    rw [List.foldl_cons]
    obtain ⟨h1, h2⟩ := ih (max b a)
    refine ⟨le_trans (le_max_left b a) h1, ?_⟩
    intro x hx
    rcases List.mem_cons.mp hx with rfl | hx
    · exact le_trans (le_max_right b x) h1
    · exact h2 x hx

theorem nextRowid_fresh (ids : List Int) (id : Int) (h : nextRowid ids = some id) :
    ∀ x ∈ ids, x < id := by
  intro x hx
  have h1 := (nextRowid_eq_some ids id h).2
  have h2 := (le_foldl_max ids 0).2 x hx
  omega

theorem mem_GetLatestDrafts_one_of_newest (s : Store) (nd : Draft) (hmem : nd ∈ s.drafts)
    (hnew : ∀ d ∈ s.drafts, d.Id ≤ nd.Id) :
    ∃ rows, GetLatestDrafts s false 1 = .ok rows ∧ nd ∈ rows := by
  refine ⟨orderByVersionNumberDesc
      (s.drafts.filter (fun d => decide ((countNewerDrafts s.drafts d : Int) < 1))),
    by simp [GetLatestDrafts], ?_⟩
  rw [(orderByVersionNumberDesc_perm _).mem_iff, List.mem_filter]
  refine ⟨hmem, ?_⟩
  have hz : countNewerDrafts s.drafts nd = 0 := by
    unfold countNewerDrafts
    rw [List.length_eq_zero, List.filter_eq_nil_iff]
    intro d hd
    have := hnew d hd
    simp only [Bool.and_eq_true, beq_iff_eq, decide_eq_true_eq, not_and]
    intro _
    omega
  simp [hz]

/-- C12: after a `CreateDraft` call that returns `nil`, on any store (so on
every store that `CreateDraft` calls lead to), `GetLatestDrafts 1` contains
the draft just inserted: its content is the content given, it belongs to a
stored document of the name given, and its version number is that document's
`LatestVersion`. -/
theorem GetLatestDrafts_one_after_CreateDraft (s s' : Store) (env : Env)
    (draft : common.Draft) (h : CreateDraft s env draft = (s', none)) :
    ∃ rows, GetLatestDrafts s' false 1 = .ok rows ∧
      ∃ nd ∈ rows, nd.Content = draft.Content ∧ nd ∈ s'.drafts ∧ nd ∉ s.drafts ∧
        ∃ D ∈ s'.documents, D.Name = draft.Name ∧ D.Id = nd.DocumentId ∧
          nd.VersionNumber = D.LatestVersion := by
  cases hf : s.documents.find? (fun d => d.Name == draft.Name) with
  | some found =>
    obtain ⟨id, hn, hs⟩ := CreateDraft_ok_found s s' env draft found hf h
    have hfresh := nextRowid_fresh _ _ hn
    have hfmem : found ∈ s.documents := List.mem_of_find?_eq_some hf
    have hfname : found.Name = draft.Name := by
      simpa using List.find?_some hf
    subst hs
    obtain ⟨rows, hrows, hin⟩ := mem_GetLatestDrafts_one_of_newest
      { documents := s.documents.map (fun d =>
          if d.Name == found.Name then
            { d with LatestVersion := wrapInt64 (found.LatestVersion + 1) } else d),
        drafts := s.drafts ++ [⟨id, found.Id, draft.Content,
          wrapInt64 (found.LatestVersion + 1), env.nowDraft⟩],
        comments := s.comments, reactions := s.reactions }
      ⟨id, found.Id, draft.Content, wrapInt64 (found.LatestVersion + 1), env.nowDraft⟩
      (by simp)
      (by
        intro d hd
        simp only [List.mem_append, List.mem_singleton] at hd
        rcases hd with hd | hd
        · exact le_of_lt (hfresh d.Id (List.mem_map_of_mem (fun d => d.Id) hd))
        · rw [hd])
    refine ⟨rows, hrows, _, hin, rfl, by simp, ?_, ?_⟩
    · intro hold
      have := hfresh _ (List.mem_map_of_mem (fun d => d.Id) hold)
      simp at this
    · refine ⟨{ found with LatestVersion := wrapInt64 (found.LatestVersion + 1) }, ?_,
        hfname, rfl, rfl⟩
      simp only [List.mem_map]
      exact ⟨found, hfmem, by simp⟩
  | none =>
    obtain ⟨docId, id, doc, hd, hfd, hn, hs⟩ := CreateDraft_ok_new s s' env draft hf h
    have hfreshDoc := nextRowid_fresh _ _ hd
    have hfresh := nextRowid_fresh _ _ hn
    have hdoc : doc = ⟨docId, draft.Name, 1, env.nowDocument⟩ := by
      rw [List.find?_append] at hfd
      have hnone : s.documents.find? (fun d => d.Id == docId) = none := by
        rw [List.find?_eq_none]
        intro D hD
        have := hfreshDoc D.Id (List.mem_map_of_mem (fun d => d.Id) hD)
        simp only [beq_iff_eq]
        omega
      rw [hnone] at hfd
      simp at hfd
      exact hfd.symm
    subst hdoc
    subst hs
    obtain ⟨rows, hrows, hin⟩ := mem_GetLatestDrafts_one_of_newest
      { documents := s.documents ++ [⟨docId, draft.Name, 1, env.nowDocument⟩],
        drafts := s.drafts ++ [⟨id, docId, draft.Content, 1, env.nowDraft⟩],
        comments := s.comments, reactions := s.reactions }
      ⟨id, docId, draft.Content, 1, env.nowDraft⟩
      (by simp)
      (by
        intro d hd
        simp only [List.mem_append, List.mem_singleton] at hd
        rcases hd with hd | hd
        · exact le_of_lt (hfresh d.Id (List.mem_map_of_mem (fun d => d.Id) hd))
        · rw [hd])
    refine ⟨rows, hrows, _, hin, rfl, by simp, ?_, ?_⟩
    · intro hold
      have := hfresh _ (List.mem_map_of_mem (fun d => d.Id) hold)
      simp at this
    · exact ⟨⟨docId, draft.Name, 1, env.nowDocument⟩, by simp, rfl, rfl, rfl⟩

/-- Witness for C12: a second draft for document `A` on `storeOneDraft`. -/
theorem GetLatestDrafts_one_after_CreateDraft_witness :
    CreateDraft storeOneDraft (Env.calm 20 21) ⟨"A", "y", 0⟩ = (storeTwoDrafts, none) ∧
    ∃ rows, GetLatestDrafts storeTwoDrafts false 1 = .ok rows ∧
      ∃ nd ∈ rows, nd.Content = "y" :=
  ⟨by decide,
   (GetLatestDrafts_one_after_CreateDraft storeOneDraft storeTwoDrafts (Env.calm 20 21)
      ⟨"A", "y", 0⟩ (by decide)).imp
     (fun _ hr => ⟨hr.1, hr.2.imp (fun _ hn => ⟨hn.1, hn.2.1⟩)⟩)⟩
/-! ## The row fold, row by row -/

theorem firstRows_find (rows : List JoinedRow) :
    ∀ seen : List Int, ∀ x ∈ firstRows seen rows,
      rows.find? (fun y => y.commentId == x.commentId) = some x := by
  induction rows with
  | nil => intro seen x hx; simp [firstRows] at hx
  | cons r rest ih =>
    intro seen x hx
    have hns := firstRows_not_seen (r :: rest) seen x hx
    unfold firstRows at hx
    split at hx
    · rename_i hr
      have hne : ¬ r.commentId = x.commentId := fun heq => hns (heq ▸ hr)
      rw [List.find?_cons_of_neg _ (by simpa using hne)]
      exact ih seen x hx
    · rcases List.mem_cons.mp hx with rfl | hx
      · simp
      · have hns' := firstRows_not_seen rest _ x hx
        have hne : ¬ r.commentId = x.commentId := by
          intro heq
          exact hns' (by simp [heq])
        rw [List.find?_cons_of_neg _ (by simpa using hne)]
        exact ih _ x hx

theorem foldJoinedRow_null_row (M : List (Int × CommentWithReactions)) (r : JoinedRow)
    (hnull : r.reactionId = none) :
    (foldJoinedRow M r).flatMap (fun e => sliceElems e.2.Reactions)
      = M.flatMap (fun e => sliceElems e.2.Reactions) := by
  by_cases hmem : r.commentId ∈ M.map (fun e => e.1)
  · rw [foldJoinedRow_seen M r hmem, List.flatMap_map]
    simp [hnull, sliceExtend]
  · rw [foldJoinedRow_new M r hmem]
    simp [hnull, sliceElems]

/-- C15: the row fold of `GetCommentsAndReactionsByDraftId`, for every sequence
of joined rows.  Each comment id among the rows gets one entry and no other id
gets one; the entry carries the user id, text, parent and time of the first row
of its comment, and as reactions, in a slice that is not `nil`, those of the
rows of its comment whose reaction columns are not NULL, in the order of the
rows.  So a comment whose only row has NULL reaction columns is in the result
once, with the reaction slice that is empty and not `nil`, and a row with NULL
reaction columns adds no reaction to the map. -/
theorem foldJoinedRows_spec (rows : List JoinedRow) :
    ((foldJoinedRows rows).map (fun e => e.1)).Nodup ∧
    (∀ k, k ∈ (foldJoinedRows rows).map (fun e => e.1) ↔
      k ∈ rows.map (fun r => r.commentId)) ∧
    (∀ e ∈ foldJoinedRows rows, e.2.Id = e.1 ∧
      (∃ r, rows.find? (fun x => x.commentId == e.1) = some r ∧ e.2.UserId = r.userId ∧
        e.2.Text = r.text ∧ e.2.ParentCommentId = r.parentCommentId ∧
        e.2.CreatedAt = r.createdAt) ∧
      e.2.Reactions =
        some ((rows.filter (fun x => x.commentId == e.1 && x.reactionId.isSome)).map
          scannedReaction)) ∧
    (∀ r, rows.filter (fun x => x.commentId == r.commentId) = [r] → r.reactionId = none →
      ∃ e, ((foldJoinedRows rows).map (fun e => e.2)).filter (fun e => e.Id == r.commentId) = [e]
        ∧ e.Reactions = some []) ∧
    (∀ (M : List (Int × CommentWithReactions)) (r : JoinedRow), r.reactionId = none →
      (foldJoinedRow M r).flatMap (fun e => sliceElems e.2.Reactions)
        = M.flatMap (fun e => sliceElems e.2.Reactions)) := by
  have hkeys : (foldJoinedRows rows).map (fun e => e.1)
      = (firstRows [] rows).map (fun r => r.commentId) := by
    rw [foldJoinedRows_eq, List.map_map]
    rfl
  have hnd := firstRows_keys_nodup rows []
  have hentries : ∀ e ∈ foldJoinedRows rows, e.2.Id = e.1 ∧
      (∃ r, rows.find? (fun x => x.commentId == e.1) = some r ∧ e.2.UserId = r.userId ∧
        e.2.Text = r.text ∧ e.2.ParentCommentId = r.parentCommentId ∧
        e.2.CreatedAt = r.createdAt) ∧
      e.2.Reactions =
        some ((rows.filter (fun x => x.commentId == e.1 && x.reactionId.isSome)).map
          scannedReaction) := by
    intro e he
    rw [foldJoinedRows_eq] at he
    obtain ⟨x, hx, rfl⟩ := List.mem_map.mp he
    exact ⟨rfl, ⟨x, firstRows_find rows [] x hx, rfl, rfl, rfl, rfl⟩, rfl⟩
  refine ⟨hkeys ▸ hnd, ?_, hentries, ?_, foldJoinedRow_null_row⟩
  · intro k
    rw [hkeys, firstRows_keys_mem]
    simp
  · intro r honly hnull
    have hrmem : r ∈ rows := by
      have : r ∈ rows.filter (fun x => x.commentId == r.commentId) := by
        rw [honly]; exact List.mem_singleton_self r
      exact (List.mem_filter.mp this).1
    have hk : r.commentId ∈ (foldJoinedRows rows).map (fun e => e.1) := by
      rw [hkeys, firstRows_keys_mem]
      exact ⟨by simp, List.mem_map_of_mem (fun r => r.commentId) hrmem⟩
    obtain ⟨e, he, hek⟩ := List.mem_map.mp hk
    have hvals : ((foldJoinedRows rows).map (fun e => e.2)).map (fun e => e.Id)
        = (foldJoinedRows rows).map (fun e => e.1) := by
      rw [List.map_map]
      apply List.map_congr_left
      intro e' he'
      exact (hentries e' he').1
    have hvnd : ((foldJoinedRows rows).map (fun e => e.2)).map (fun e => e.Id) |>.Nodup := by
      rw [hvals, hkeys]; exact hnd
    have hvmem : e.2 ∈ (foldJoinedRows rows).map (fun e => e.2) :=
      List.mem_map_of_mem (fun e => e.2) he
    have heid : e.2.Id = r.commentId := ((hentries e he).1).trans hek
    refine ⟨e.2, ?_, ?_⟩
    · have hcount : ∀ (l : List CommentWithReactions), (l.map (fun e => e.Id)).Nodup →
          ∀ a ∈ l, l.filter (fun e => e.Id == a.Id) = [a] := by
        intro l
        induction l with
        | nil => intro _ a ha; simp at ha
        | cons b t ih =>
          intro hl a ha
          rw [List.map_cons, List.nodup_cons] at hl
          rcases List.mem_cons.mp ha with rfl | ha
          · have hnil : t.filter (fun e => e.Id == a.Id) = [] := by
              rw [List.filter_eq_nil_iff]
              intro c hc
              simp only [beq_iff_eq]
              intro hca
              exact hl.1 (hca ▸ List.mem_map_of_mem (fun e => e.Id) hc)
            simp [List.filter_cons, hnil]
          · have hba : ¬ b.Id = a.Id := by
              intro hba
              exact hl.1 (hba ▸ List.mem_map_of_mem (fun e => e.Id) ha)
            simp only [List.filter_cons, beq_iff_eq, hba, if_false]
            exact ih hl.2 a ha
      have := hcount _ hvnd e.2 hvmem
      rw [heid] at this
      exact this
    · rw [(hentries e he).2.2, hek]
      have hsub : rows.filter (fun x => x.commentId == r.commentId && x.reactionId.isSome)
          = (rows.filter (fun x => x.commentId == r.commentId)).filter
              (fun x => x.reactionId.isSome) := by
        rw [List.filter_filter]
        apply List.filter_congr
        intro x _
        exact Bool.and_comm _ _
      rw [hsub, honly]
      simp [hnull]

/-- Witness for C15: comment 7 with one NULL row, comment 8 with two reactions. -/
theorem foldJoinedRows_spec_witness :
    [(⟨7, 1, "hi", none, 30, none, none, none, none⟩ : JoinedRow),
      ⟨8, 2, "yo", some 7, 31, some 1, some 5, some thumbsUp, some 40⟩,
      ⟨8, 2, "yo", some 7, 31, some 2, some 6, some thumbsUp, some 41⟩].filter
        (fun x => x.commentId == 7) = [⟨7, 1, "hi", none, 30, none, none, none, none⟩] ∧
    ∃ e, ((foldJoinedRows
      [⟨7, 1, "hi", none, 30, none, none, none, none⟩,
        ⟨8, 2, "yo", some 7, 31, some 1, some 5, some thumbsUp, some 40⟩,
        ⟨8, 2, "yo", some 7, 31, some 2, some 6, some thumbsUp, some 41⟩]).map
          (fun e => e.2)).filter (fun e => e.Id == 7) = [e] ∧ e.Reactions = some [] :=
  ⟨by decide,
   (foldJoinedRows_spec
      [⟨7, 1, "hi", none, 30, none, none, none, none⟩,
        ⟨8, 2, "yo", some 7, 31, some 1, some 5, some thumbsUp, some 40⟩,
        ⟨8, 2, "yo", some 7, 31, some 2, some 6, some thumbsUp, some 41⟩]).2.2.2.1
      ⟨7, 1, "hi", none, 30, none, none, none, none⟩ (by decide) rfl⟩

/-! ## Referential integrity -/

theorem DraftsReferToDocuments_of_ids (s s' : Store) (hdr : s'.drafts = s.drafts)
    (hdoc : ∀ D ∈ s.documents, ∃ D' ∈ s'.documents, D'.Id = D.Id)
    (h : DraftsReferToDocuments s) : DraftsReferToDocuments s' := by
  intro d hd
  rw [hdr] at hd
  obtain ⟨D, hD, hDid⟩ := h d hd
  obtain ⟨D', hD', hD'id⟩ := hdoc D hD
  exact ⟨D', hD', hD'id.trans hDid⟩

theorem createDocument_refers (s : Store) (env : Env) (name : String)
    (h : DraftsReferToDocuments s) :
    DraftsReferToDocuments (createDocument s env name).1 ∧
    (createDocument s env name).1.drafts = s.drafts ∧
    (createDocument s env name).1.comments = s.comments ∧
    (createDocument s env name).1.reactions = s.reactions ∧
    ∀ doc, (createDocument s env name).2 = .ok (some doc) →
      ∃ D ∈ (createDocument s env name).1.documents, D.Id = doc.Id := by
  cases hf : s.documents.find? (fun d => d.Name == name) with
  | some found =>
    have hfmem : found ∈ s.documents := List.mem_of_find?_eq_some hf
    rw [createDocument_found s env name found hf]
    cases h1 : env.faults.selectByName
    · cases h2 : env.faults.updateVersion
      · simp only [Bool.false_eq_true, if_false]
        have hids : ∀ D ∈ s.documents, ∃ D' ∈ s.documents.map (fun d =>
            if d.Name == found.Name then
              ({ d with LatestVersion := wrapInt64 (found.LatestVersion + 1) } : Document)
            else d), D'.Id = D.Id := by
          intro D hD
          refine ⟨_, List.mem_map_of_mem _ hD, ?_⟩
          by_cases hDn : D.Name = found.Name <;> simp [hDn]
        refine ⟨DraftsReferToDocuments_of_ids s _ rfl hids h, by trivial, by trivial,
          by trivial, ?_⟩
        intro doc hdoc
        simp only [Except.ok.injEq, Option.some.injEq] at hdoc
        subst hdoc
        exact hids found hfmem
      · simp only [Bool.false_eq_true, if_false, if_true]
        exact ⟨h, by trivial, by trivial, by trivial, by simp⟩
    · simp only [if_true]
      exact ⟨h, by trivial, by trivial, by trivial, by simp⟩
  | none =>
    rw [createDocument_new s env name hf]
    cases h1 : env.faults.selectByName
    · simp only [Bool.false_eq_true, if_false]
      unfold insertDocument
      cases h2 : env.faults.insertDocument
      · simp only [Bool.false_eq_true, if_false]
        cases hn : nextRowid (s.documents.map (fun d => d.Id)) with
        | none => exact ⟨h, by trivial, by trivial, by trivial, by simp⟩
        | some id =>
          simp only
          refine ⟨DraftsReferToDocuments_of_ids s _ rfl
            (fun D hD => ⟨D, List.mem_append_left _ hD, rfl⟩) h, by trivial, by trivial,
            by trivial, ?_⟩
          intro doc hdoc
          unfold GetDocumentById at hdoc
          split at hdoc
          · simp at hdoc
          · simp only [Except.ok.injEq] at hdoc
            exact ⟨doc, List.mem_of_find?_eq_some hdoc, rfl⟩
      · simp only [if_true]
        exact ⟨h, by trivial, by trivial, by trivial, by simp⟩
    · simp only [if_true]
      exact ⟨h, by trivial, by trivial, by trivial, by simp⟩

theorem CreateDraft_refers (s : Store) (env : Env) (draft : common.Draft)
    (h : DraftsReferToDocuments s) : DraftsReferToDocuments (CreateDraft s env draft).1 := by
  obtain ⟨hP, hdr, -, -, hdoc⟩ := createDocument_refers s env draft.Name h
  unfold CreateDraft
  cases h0 : env.faults.beginTx
  · simp only [Bool.false_eq_true, if_false]
    generalize createDocument s env draft.Name = r at hP hdr hdoc
    obtain ⟨s1, res⟩ := r
    simp only at hP hdr hdoc
    cases res with
    | error e => exact hP
    | ok od =>
      cases od with
      | none => exact hP
      | some doc =>
        simp only
        unfold insertDraft
        cases h3 : env.faults.insertDraft
        · simp only [Bool.false_eq_true, if_false]
          cases hn : nextRowid (s1.drafts.map (fun d => d.Id)) with
          | none => exact hP
          | some id =>
            simp only
            cases h4 : env.faults.commitTx
            · simp only [Bool.false_eq_true, if_false]
              intro d hd
              simp only [List.mem_append, List.mem_singleton] at hd
              rcases hd with hd | hd
              · exact hP d hd
              · obtain ⟨D, hD, hDid⟩ := hdoc doc rfl
                exact ⟨D, hD, by rw [hDid, hd]⟩
            · simp only [if_true]
              exact hP
        · simp only [if_true]
          exact hP
  · simp only [if_true]
    exact h

theorem AddCommentToDraft_refers (s : Store) (refused : Bool) (now : Time) (comment : Comment)
    (h : DraftsReferToDocuments s) :
    DraftsReferToDocuments (AddCommentToDraft s refused now comment).1 := by
  unfold AddCommentToDraft
  cases refused
  · cases hn : nextRowid (s.comments.map (fun c => c.Id)) <;> exact h
  · exact h

theorem AddReactionToComment_refers (s : Store) (refused : Bool) (now : Time)
    (reaction : common.Reaction) (h : DraftsReferToDocuments s) :
    DraftsReferToDocuments (AddReactionToComment s refused now reaction).1 := by
  unfold AddReactionToComment
  cases refused
  · cases hn : nextRowid (s.reactions.map (fun r => r.Id)) <;> exact h
  · exact h

/-- C13 fails as stated: a comment is stored for a draft that does not exist,
a reaction for a comment that does not exist, and a comment with itself as
parent; each of these stores is reached by the store operations from the
empty store. -/
theorem ReferentialIntegrity_not_invariant :
    ((AddCommentToDraft Store.empty false 30 ⟨0, 42, 1, "hi", none, 0⟩).1
      = { documents := [], drafts := [], comments := [⟨1, 42, 1, "hi", none, 30⟩],
          reactions := [] }) ∧
    ((AddReactionToComment Store.empty false 40 ⟨7, 1, thumbsUp, 0⟩).1
      = { documents := [], drafts := [], comments := [],
          reactions := [⟨1, 7, 1, thumbsUp, 40⟩] }) ∧
    ((AddCommentToDraft storeOneDraft false 30 ⟨0, 1, 1, "hi", some 1, 0⟩).1.comments
      = [⟨1, 1, 1, "hi", some 1, 30⟩]) ∧
    ¬ (∀ s, ReachableByWrites s → ReferentialIntegrity s) := by
  have h1 : (AddCommentToDraft Store.empty false 30 ⟨0, 42, 1, "hi", none, 0⟩).1
      = { documents := [], drafts := [], comments := [⟨1, 42, 1, "hi", none, 30⟩],
          reactions := [] } := by decide
  refine ⟨h1, by decide, by decide, fun hall => ?_⟩
  have hr := hall _ (ReachableByWrites.addComment false 30 ⟨0, 42, 1, "hi", none, 0⟩
    ReachableByWrites.empty)
  rw [h1] at hr
  obtain ⟨d, hd, -⟩ := hr.2.1 ⟨1, 42, 1, "hi", none, 30⟩ (by simp)
  simp at hd

/-- C13 amended: in every store state that `CreateDraft`, `AddCommentToDraft`
and `AddReactionToComment` calls lead to from the empty store, whatever their
arguments and whatever they return, every draft's `DocumentId` is the id of a
stored document. -/
theorem DraftsReferToDocuments_of_reachable (s : Store) (h : ReachableByWrites s) :
    DraftsReferToDocuments s := by
  induction h with
  | empty => intro d hd; simp [Store.empty] at hd
  | createDraft env draft _ ih => exact CreateDraft_refers _ env draft ih
  | addComment refused now comment _ ih => exact AddCommentToDraft_refers _ refused now comment ih
  | addReaction refused now reaction _ ih =>
    exact AddReactionToComment_refers _ refused now reaction ih

/-- Witness for C13 amended: a draft, then a comment on a draft that does not
exist. -/
theorem DraftsReferToDocuments_of_reachable_witness :
    ReachableByWrites (AddCommentToDraft
      (CreateDraft Store.empty (Env.calm 10 11) ⟨"A", "x", 0⟩).1 false 30
      ⟨0, 42, 1, "hi", none, 0⟩).1 ∧
    DraftsReferToDocuments (AddCommentToDraft
      (CreateDraft Store.empty (Env.calm 10 11) ⟨"A", "x", 0⟩).1 false 30
      ⟨0, 42, 1, "hi", none, 0⟩).1 :=
  ⟨ReachableByWrites.addComment _ _ _ (ReachableByWrites.createDraft _ _ ReachableByWrites.empty),
   DraftsReferToDocuments_of_reachable _
     (ReachableByWrites.addComment _ _ _
       (ReachableByWrites.createDraft _ _ ReachableByWrites.empty))⟩

end DocumentApi
